import Mathlib

/-!
# Quadtree: a shallow embedding of `AxisAlignedBoundingBox.hpp` and `Quadtree.hpp`

Coordinates are the C++ `double`s read as exact rationals (`ℚ`), so that `+`, `/ 2.0`, `<`
and `==` are exact.  The statements that need the four children to cover their parent hold
over this exact arithmetic only and say so; the last section of the definitions gives the same
code with every sum and half rounded to binary64 (`round_double`), and is used to evaluate
the code where rounding decides the outcome.  A node of the C++ class is either not divided (all four child pointers
null) or divided (all four present); the two shapes are the two constructors of `Quadtree`.
`std::unordered_set<Element, ElementHasher>` is a duplicate-free list: inserting an element
that is already present (under `Element::operator==`) changes nothing.  The iteration order of
the C++ container is unspecified; no statement below depends on the order chosen here.
`unsigned int` fields are natural numbers (`depth + 1` is only computed below `max_depth`,
`capacity` is only compared); the `size_t` index of the iterator wraps at `2 ^ bits`, with the
width `bits` of `size_t` on the target a parameter.
-/

namespace QuadTree

/-! ## `AxisAlignedBoundingBox.hpp` -/

/-- The class `AxisAlignedBoundingBox`: origin `x, y` and extents `w, h`. -/
structure AxisAlignedBoundingBox where
  x : ℚ
  y : ℚ
  w : ℚ
  h : ℚ
deriving DecidableEq

/-- The friend function `collides(one, two)`. -/
def collides (one two : AxisAlignedBoundingBox) : Bool :=
  decide (one.x < two.x + two.w) &&
  decide (one.x + one.w > two.x) &&
  decide (one.y < two.y + two.h) &&
  decide (one.y + one.h > two.y)

/-! ## `Quadtree.hpp` -/

/-- The struct `Quadtree::Element`; the derived equality is `Element::operator==`
(all four box fields and the metadata equal). -/
structure Element (M : Type) where
  box : AxisAlignedBoundingBox
  data : M
deriving DecidableEq

/-- The member `max_depth = 8`, the same in every node. -/
def max_depth : Nat := 8

/-- A node of `Quadtree<MetadataType>`: `leaf` is a node with `divided == false`,
`node` one with `divided == true` and its four children
`northeast`, `northwest`, `southeast`, `southwest` (in this order). -/
inductive Quadtree (M : Type) where
  | leaf (boundary : AxisAlignedBoundingBox) (capacity depth : Nat)
      (elements : List (Element M)) : Quadtree M
  | node (boundary : AxisAlignedBoundingBox) (capacity depth : Nat)
      (elements : List (Element M))
      (northeast northwest southeast southwest : Quadtree M) : Quadtree M
deriving DecidableEq

namespace Quadtree

variable {M : Type}

/-- The member `boundary`. -/
def boundary : Quadtree M → AxisAlignedBoundingBox
  | leaf b _ _ _ => b
  | node b _ _ _ _ _ _ _ => b

/-- The member `capacity`. -/
def capacity : Quadtree M → Nat
  | leaf _ c _ _ => c
  | node _ c _ _ _ _ _ _ => c

/-- The member `depth`. -/
def depth : Quadtree M → Nat
  | leaf _ _ d _ => d
  | node _ _ d _ _ _ _ _ => d

/-- The member `elements`, the local buffer of the node. -/
def elements : Quadtree M → List (Element M)
  | leaf _ _ _ els => els
  | node _ _ _ els _ _ _ _ => els

/-- The member `divided`. -/
def divided : Quadtree M → Bool
  | leaf _ _ _ _ => false
  | node _ _ _ _ _ _ _ _ => true

/-- The constructor `Quadtree(bounds, region_capacity, current_depth = 0)`. -/
def mk (bounds : AxisAlignedBoundingBox) (region_capacity : Nat) (current_depth : Nat) :
    Quadtree M :=
  leaf bounds region_capacity current_depth []

/-- `elements.push_back(el)` on a node. -/
def push_back : Quadtree M → Element M → Quadtree M
  | leaf b c d els, el => leaf b c d (els ++ [el])
  | node b c d els ne nw se sw, el => node b c d (els ++ [el]) ne nw se sw

/-- `elements.clear()` on a node. -/
def clear : Quadtree M → Quadtree M
  | leaf b c d _ => leaf b c d []
  | node b c d _ ne nw se sw => node b c d [] ne nw se sw

/-- The method `subdivide()`: four fresh children at `depth + 1` over the four quadrants,
`divided = true`; the local buffer is left as it is. -/
def subdivide (t : Quadtree M) : Quadtree M :=
  let x := t.boundary.x
  let y := t.boundary.y
  let w := t.boundary.w
  let h := t.boundary.h
  let hw := w / 2
  let hh := h / 2
  node t.boundary t.capacity t.depth t.elements
    (mk ⟨x + hw, y, hw, hh⟩ t.capacity (t.depth + 1))
    (mk ⟨x, y, hw, hh⟩ t.capacity (t.depth + 1))
    (mk ⟨x + hw, y + hh, hw, hh⟩ t.capacity (t.depth + 1))
    (mk ⟨x, y + hh, hw, hh⟩ t.capacity (t.depth + 1))

/-- The block of `insert` that hands one element to the children of a divided node:
the four `if (collides(child->boundary, box)) { child->insert(box, data); placed = true; }`
lines followed by `if (!placed) elements.push_back(el)`.  `ins` is the recursive call.  On a
node that is not divided the `if (divided)` block is skipped and the element is pushed. -/
def place (ins : Quadtree M → AxisAlignedBoundingBox → M → Quadtree M) :
    Quadtree M → Element M → Quadtree M
  | node b c d els ne nw se sw, el =>
      let placed := collides ne.boundary el.box || collides nw.boundary el.box ||
        collides se.boundary el.box || collides sw.boundary el.box
      node b c d (if placed then els else els ++ [el])
        (if collides ne.boundary el.box then ins ne el.box el.data else ne)
        (if collides nw.boundary el.box then ins nw el.box el.data else nw)
        (if collides se.boundary el.box then ins se el.box el.data else se)
        (if collides sw.boundary el.box then ins sw el.box el.data else sw)
  | leaf b c d els, el => leaf b c d (els ++ [el])

/-- The method `insert(aabb, meta)`, with the depth of its recursion bounded by `fuel`: every
recursive call is a call on a child and gets one unit less.  With no fuel left the node is
returned as it is; `insert` supplies `rank`, with which that case is never reached
(`insertFuel_eq_insert`, `insert_unfold`). -/
def insertFuel : Nat → Quadtree M → AxisAlignedBoundingBox → M → Quadtree M
  | 0, t, _, _ => t
  | fuel + 1, t, aabb, meta =>
    if !collides t.boundary aabb then t
    else if t.depth ≥ max_depth then t.push_back ⟨aabb, meta⟩
    else if !t.divided && decide (t.elements.length < t.capacity) then
      t.push_back ⟨aabb, meta⟩
    else
      let t1 :=
        if !t.divided then
          t.elements.foldl (place (insertFuel fuel)) (t.subdivide).clear
        else t
      place (insertFuel fuel) t1 ⟨aabb, meta⟩

/-- A bound on the recursion depth of `insert` at a node: a leaf can still grow
`max_depth - depth` levels, a divided node recurses into its children. -/
def rank : Quadtree M → Nat
  | leaf _ _ d _ => max_depth - d + 1
  | node _ _ _ _ ne nw se sw => max (max ne.rank nw.rank) (max se.rank sw.rank) + 1

/-- The method `insert(aabb, meta)`.  It is total, and `insert_unfold` states its body with the
recursive calls being calls of `insert` itself. -/
def insert (t : Quadtree M) (aabb : AxisAlignedBoundingBox) (meta : M) : Quadtree M :=
  insertFuel t.rank t aabb meta

/-! ### The deduplicating set `std::unordered_set<Element, ElementHasher>` -/

/-- The call `result.insert(first, last)`: every element of the range is inserted in turn. -/
def insertRange (acc : List (Element M)) (range : List (Element M)) [DecidableEq M] :
    List (Element M) :=
  range.foldl (fun s el => List.insert el s) acc

/-- The method `query_region(search_area)`. -/
def query_region [DecidableEq M] : Quadtree M → AxisAlignedBoundingBox → List (Element M)
  | leaf b _ _ els, search_area =>
      if !collides b search_area then []
      else els.foldl (fun r el => if collides el.box search_area then List.insert el r else r) []
  | node b _ _ els northeast northwest southeast southwest, search_area =>
      if !collides b search_area then []
      else
        let result :=
          els.foldl (fun r el => if collides el.box search_area then List.insert el r else r) []
        let ne := northeast.query_region search_area
        let nw := northwest.query_region search_area
        let se := southeast.query_region search_area
        let sw := southwest.query_region search_area
        insertRange (insertRange (insertRange (insertRange result ne) nw) se) sw

/-- The helper `collect_all_unique(acc)`. -/
def collect_all_unique [DecidableEq M] : Quadtree M → List (Element M) → List (Element M)
  | leaf _ _ _ els, acc => insertRange acc els
  | node _ _ _ els northeast northwest southeast southwest, acc =>
      southwest.collect_all_unique
        (southeast.collect_all_unique
          (northwest.collect_all_unique
            (northeast.collect_all_unique (insertRange acc els))))

/-- The helper `collect_regions(acc)`. -/
def collect_regions : Quadtree M → List AxisAlignedBoundingBox → List AxisAlignedBoundingBox
  | leaf b _ _ _, acc => acc ++ [b]
  | node b _ _ _ northeast northwest southeast southwest, acc =>
      southwest.collect_regions
        (southeast.collect_regions
          (northwest.collect_regions
            (northeast.collect_regions (acc ++ [b]))))

/-- The method `get_all_regions()`. -/
def get_all_regions (t : Quadtree M) : List AxisAlignedBoundingBox :=
  t.collect_regions []

/-- The vector that `begin()` builds from the set filled by `collect_all_unique`
(the snapshot; `allEntries()` in the specification). -/
def allEntries [DecidableEq M] (t : Quadtree M) : List (Element M) :=
  t.collect_all_unique []

end Quadtree

/-! ### `Quadtree::Iterator` -/

/-- The class `Iterator`.  `elements` is the `shared_ptr`: `none` is the null pointer of the
default constructor, `some (p, v)` points to the vector `v` allocated at address `p`
(`operator==` on `shared_ptr` compares addresses). -/
structure Iterator (M : Type) where
  elements : Option (Nat × List (Element M))
  current_index : Nat

namespace Iterator

variable {M : Type}

/-- The private method `is_exhausted()`. -/
def is_exhausted (it : Iterator M) : Bool :=
  match it.elements with
  | none => true
  | some (_, v) => decide (it.current_index ≥ v.length)

/-- `operator==`. -/
def eq (it other : Iterator M) : Bool :=
  let this_exhausted := it.is_exhausted
  let other_exhausted := other.is_exhausted
  if this_exhausted && other_exhausted then true
  else if this_exhausted != other_exhausted then false
  else decide (it.elements.map Prod.fst = other.elements.map Prod.fst) &&
    decide (it.current_index = other.current_index)

/-- `operator!=`. -/
def ne (it other : Iterator M) : Bool := !(it.eq other)

/-- `operator++`: `current_index++` on a `size_t` of `bits` bits. -/
def incr (bits : Nat) (it : Iterator M) : Iterator M :=
  { it with current_index := (it.current_index + 1) % 2 ^ bits }

/-- `operator*`: `(*elements)[current_index]`; `none` where the C++ access is out of range
or goes through the null pointer. -/
def deref (it : Iterator M) : Option (Element M) :=
  match it.elements with
  | none => none
  | some (_, v) => v.get? it.current_index

end Iterator

namespace Quadtree

variable {M : Type}

/-- The method `begin()`; `addr` is the address of the vector it allocates. -/
def begin [DecidableEq M] (t : Quadtree M) (addr : Nat) : Iterator M :=
  ⟨some (addr, t.allEntries), 0⟩

/-- The method `end()`: the default-constructed `Iterator()`. -/
def end_ (_t : Quadtree M) : Iterator M := ⟨none, 0⟩

/-- The loop `for (auto it = tree.begin(); it != tree.end(); ++it) all.push_back(*it)` of
`get_all_helper` (bindings.cpp), started at `it` with `all` collected so far and run for at
most `fuel` tests of the loop condition; `none` when the fuel runs out or `*it` is invalid. -/
def iterate (bits : Nat) (tree : Quadtree M) :
    Nat → Iterator M → List (Element M) → Option (List (Element M))
  | 0, _, _ => none
  | fuel + 1, it, all =>
      if it.ne tree.end_ then
        match it.deref with
        | some el => iterate bits tree fuel (it.incr bits) (all ++ [el])
        | none => none
      else some all

/-- The function `get_all_helper(tree)` of bindings.cpp. -/
def get_all_helper [DecidableEq M] (bits fuel : Nat) (tree : Quadtree M) (addr : Nat) :
    Option (List (Element M)) :=
  iterate bits tree fuel (tree.begin addr) []

/-- The tree after a sequence of `insert` calls, applied left to right. -/
def insertAll (t : Quadtree M) (ops : List (Element M)) : Quadtree M :=
  ops.foldl (fun t el => t.insert el.box el.data) t

end Quadtree

/-! ## Auxiliary definitions used in the statements and proofs -/

namespace Quadtree

variable {M : Type}

/-- A chain of `Q`-steps through a list of elements, one step per element. -/
inductive Steps (Q : Quadtree M → Element M → Quadtree M → Prop) :
    List (Element M) → Quadtree M → Quadtree M → Prop
  | nil (s : Quadtree M) : Steps Q [] s s
  | cons {x : Element M} {xs : List (Element M)} {s s1 s2 : Quadtree M} :
      Q s x s1 → Steps Q xs s1 s2 → Steps Q (x :: xs) s s2

/-- Every element held in a local buffer anywhere in the tree, copies included. -/
def stored : Quadtree M → List (Element M)
  | leaf _ _ _ els => els
  | node _ _ _ els ne nw se sw => els ++ (ne.stored ++ (nw.stored ++ (se.stored ++ sw.stored)))

/-- The local scan of `query_region`: the loop over `elements` that inserts the colliding ones. -/
def scan [DecidableEq M] (search_area : AxisAlignedBoundingBox) (els : List (Element M))
    (acc : List (Element M)) : List (Element M) :=
  els.foldl (fun r el => if collides el.box search_area then List.insert el r else r) acc

/-- At every divided node the four child boundaries are the quadrants that `subdivide`
computes from the node's boundary. -/
def Quadrants : Quadtree M → Prop
  | leaf _ _ _ _ => True
  | node b _ _ _ ne nw se sw =>
      ne.boundary = ⟨b.x + b.w / 2, b.y, b.w / 2, b.h / 2⟩ ∧
      nw.boundary = ⟨b.x, b.y, b.w / 2, b.h / 2⟩ ∧
      se.boundary = ⟨b.x + b.w / 2, b.y + b.h / 2, b.w / 2, b.h / 2⟩ ∧
      sw.boundary = ⟨b.x, b.y + b.h / 2, b.w / 2, b.h / 2⟩ ∧
      ne.Quadrants ∧ nw.Quadrants ∧ se.Quadrants ∧ sw.Quadrants

/-- The element `e` is kept by the node: it is in the local buffer, or it collides with some
child boundary and is kept by every child whose boundary it collides with. -/
def Holds (e : Element M) : Quadtree M → Prop
  | leaf _ _ _ els => e ∈ els
  | node _ _ _ els ne nw se sw =>
      e ∈ els ∨
        ((collides ne.boundary e.box = true ∨ collides nw.boundary e.box = true ∨
            collides se.boundary e.box = true ∨ collides sw.boundary e.box = true) ∧
          (collides ne.boundary e.box = true → ne.Holds e) ∧
          (collides nw.boundary e.box = true → nw.Holds e) ∧
          (collides se.boundary e.box = true → se.Holds e) ∧
          (collides sw.boundary e.box = true → sw.Holds e))

/-- The children of a node, in the order `northeast`, `northwest`, `southeast`, `southwest`;
none for a node that is not divided. -/
def children : Quadtree M → List (Quadtree M)
  | leaf _ _ _ _ => []
  | node _ _ _ _ ne nw se sw => [ne, nw, se, sw]

/-- Every node of the tree: the node itself and the nodes of its four subtrees. -/
def nodes : Quadtree M → List (Quadtree M)
  | leaf b c d els => [leaf b c d els]
  | node b c d els ne nw se sw =>
      node b c d els ne nw se sw :: (ne.nodes ++ (nw.nodes ++ (se.nodes ++ sw.nodes)))

/-- The number of levels below a node: the depth of the recursion of `query_region`,
`collect_all_unique` and `collect_regions` on it. -/
def height : Quadtree M → Nat
  | leaf _ _ _ _ => 0
  | node _ _ _ _ ne nw se sw => max (max ne.height nw.height) (max se.height sw.height) + 1

/-- The listing of the specification: the node's own boundary, then the listings of the
northeast, northwest, southeast and southwest subtrees, each in full before the next. -/
def preorder : Quadtree M → List AxisAlignedBoundingBox
  | leaf b _ _ _ => [b]
  | node b _ _ _ ne nw se sw => b :: (ne.preorder ++ (nw.preorder ++ (se.preorder ++ sw.preorder)))

/-- The node `t1` stands where `t` stood and nothing of the structure of `t` is lost: the
boundary, capacity and depth are the same, and if `t` is divided then `t1` is divided and the
same holds of the four children, position by position. -/
def Grows : Quadtree M → Quadtree M → Prop
  | leaf b c d _, t1 => t1.boundary = b ∧ t1.capacity = c ∧ t1.depth = d
  | node _ _ _ _ _ _ _ _, leaf _ _ _ _ => False
  | node b c d _ ne nw se sw, node b1 c1 d1 _ ne1 nw1 se1 sw1 =>
      b1 = b ∧ c1 = c ∧ d1 = d ∧ ne.Grows ne1 ∧ nw.Grows nw1 ∧ se.Grows se1 ∧ sw.Grows sw1

/-- The invariant of the trees that `insert` builds.  A node that is not divided holds at most
`capacity` elements unless it is at `max_depth`, and its elements collide with its boundary.
A divided node has depth less than `max_depth`, its children are one level deeper and have its
capacity, and its elements collide with its boundary and with no child boundary. -/
def Inv : Quadtree M → Prop
  | leaf b c d els => (d < max_depth → els.length ≤ c) ∧ ∀ e ∈ els, collides b e.box = true
  | node b c d els ne nw se sw =>
      d < max_depth ∧
      (ne.depth = d + 1 ∧ nw.depth = d + 1 ∧ se.depth = d + 1 ∧ sw.depth = d + 1) ∧
      (ne.capacity = c ∧ nw.capacity = c ∧ se.capacity = c ∧ sw.capacity = c) ∧
      (∀ e ∈ els, collides b e.box = true ∧ collides ne.boundary e.box = false ∧
        collides nw.boundary e.box = false ∧ collides se.boundary e.box = false ∧
        collides sw.boundary e.box = false) ∧
      ne.Inv ∧ nw.Inv ∧ se.Inv ∧ sw.Inv

end Quadtree

/-- The rectangle `inner` lies within the rectangle `outer` (edges may touch). -/
def contains (outer inner : AxisAlignedBoundingBox) : Bool :=
  decide (outer.x ≤ inner.x) && decide (inner.x + inner.w ≤ outer.x + outer.w) &&
  decide (outer.y ≤ inner.y) && decide (inner.y + inner.h ≤ outer.y + outer.h)

/-- The root boundary of the test programs, `(0, 0, 100, 100)`. -/
def B100 : AxisAlignedBoundingBox := ⟨0, 0, 100, 100⟩

/-- The linear scan of the specification: the inserted entries whose rectangle overlaps both
the root boundary `B` and the query rectangle `R`, when `R` overlaps `B`; nothing otherwise. -/
def linear_scan {M : Type} (B : AxisAlignedBoundingBox) (ops : List (Element M))
    (R : AxisAlignedBoundingBox) : List (Element M) :=
  if collides B R then ops.filter (fun e => collides B e.box && collides e.box R) else []

/-! ## The same code in IEEE 754 binary64 arithmetic

The definitions above read `x + w`, `y + h` and `w / 2.0` exactly.  The C++ code computes them
in `double`: every sum and every half is rounded to the nearest binary64 value, ties to even.
The definitions below are the same functions with every arithmetic operation followed by a
rounding `rd`; with `rd` the identity they are the definitions above, with `rd` the rounding
`round_double` they are the code on doubles in the normal range (no overflow, no subnormal
results, no NaN). -/

/-- The position of the highest set bit of `n` (0 for `n < 2`), with the number of halvings
bounded by `fuel`. -/
def log2_fuel : Nat → Nat → Nat
  | 0, _ => 0
  | fuel + 1, n => if 2 ≤ n then log2_fuel fuel (n / 2) + 1 else 0

/-- The position of the highest set bit of `n`: `2 ^ log2 n ≤ n < 2 ^ (log2 n + 1)` for
`n > 0`. -/
def log2 (n : Nat) : Nat := log2_fuel n n

/-- Rounding of a rational (not zero, in the normal range of binary64) to the nearest number
with a 53-bit significand, ties to the even significand: `num / den` with `den > 0` is scaled by
a power of two into `[2^52, 2^53)`, rounded to an integer, and scaled back. -/
def round_double (q : ℚ) : ℚ :=
  if q = 0 then 0
  else
    let num := q.num.natAbs
    let den := q.den
    let k : Int := (log2 num : Int) - (log2 den : Int)
    let below : Bool :=
      if 0 ≤ k then decide (2 ^ k.toNat * den ≤ num) else decide (den ≤ num * 2 ^ (-k).toNat)
    let e : Int := if below then k else k - 1
    let t : Int := e - 52
    let N : Nat := if 0 ≤ t then num else num * 2 ^ (-t).toNat
    let D : Nat := if 0 ≤ t then den * 2 ^ t.toNat else den
    let f : Nat := N / D
    let r : Nat := N % D
    let n : Nat := if 2 * r < D then f else if D < 2 * r then f + 1
      else if f % 2 = 0 then f else f + 1
    let a : ℚ := if 0 ≤ t then ((n * 2 ^ t.toNat : Nat) : ℚ)
      else (n : ℚ) / ((2 ^ (-t).toNat : Nat) : ℚ)
    if q < 0 then -a else a

/-- The friend function `collides(one, two)` with rounded sums. -/
def collides_rd (rd : ℚ → ℚ) (one two : AxisAlignedBoundingBox) : Bool :=
  decide (one.x < rd (two.x + two.w)) &&
  decide (rd (one.x + one.w) > two.x) &&
  decide (one.y < rd (two.y + two.h)) &&
  decide (rd (one.y + one.h) > two.y)

namespace Quadtree

variable {M : Type}

/-- The method `subdivide()` with rounded halves and sums. -/
def subdivide_rd (rd : ℚ → ℚ) (t : Quadtree M) : Quadtree M :=
  let x := t.boundary.x
  let y := t.boundary.y
  let w := t.boundary.w
  let h := t.boundary.h
  let hw := rd (w / 2)
  let hh := rd (h / 2)
  node t.boundary t.capacity t.depth t.elements
    (mk ⟨rd (x + hw), y, hw, hh⟩ t.capacity (t.depth + 1))
    (mk ⟨x, y, hw, hh⟩ t.capacity (t.depth + 1))
    (mk ⟨rd (x + hw), rd (y + hh), hw, hh⟩ t.capacity (t.depth + 1))
    (mk ⟨x, rd (y + hh), hw, hh⟩ t.capacity (t.depth + 1))

/-- The block `place` of `insert`, with the rounded `collides`. -/
def place_rd (rd : ℚ → ℚ) (ins : Quadtree M → AxisAlignedBoundingBox → M → Quadtree M) :
    Quadtree M → Element M → Quadtree M
  | node b c d els ne nw se sw, el =>
      let placed := collides_rd rd ne.boundary el.box || collides_rd rd nw.boundary el.box ||
        collides_rd rd se.boundary el.box || collides_rd rd sw.boundary el.box
      node b c d (if placed then els else els ++ [el])
        (if collides_rd rd ne.boundary el.box then ins ne el.box el.data else ne)
        (if collides_rd rd nw.boundary el.box then ins nw el.box el.data else nw)
        (if collides_rd rd se.boundary el.box then ins se el.box el.data else se)
        (if collides_rd rd sw.boundary el.box then ins sw el.box el.data else sw)
  | leaf b c d els, el => leaf b c d (els ++ [el])

/-- The method `insert(aabb, meta)` on rounded arithmetic, with the recursion depth bounded
by `fuel` as in `insertFuel`. -/
def insertFuel_rd (rd : ℚ → ℚ) : Nat → Quadtree M → AxisAlignedBoundingBox → M → Quadtree M
  | 0, t, _, _ => t
  | fuel + 1, t, aabb, meta =>
    if !collides_rd rd t.boundary aabb then t
    else if t.depth ≥ max_depth then t.push_back ⟨aabb, meta⟩
    else if !t.divided && decide (t.elements.length < t.capacity) then
      t.push_back ⟨aabb, meta⟩
    else
      let t1 :=
        if !t.divided then
          t.elements.foldl (place_rd rd (insertFuel_rd rd fuel)) (t.subdivide_rd rd).clear
        else t
      place_rd rd (insertFuel_rd rd fuel) t1 ⟨aabb, meta⟩

/-- The method `insert(aabb, meta)` on rounded arithmetic; `rank` bounds the recursion depth
whatever the arithmetic, because it only counts levels. -/
def insert_rd (rd : ℚ → ℚ) (t : Quadtree M) (aabb : AxisAlignedBoundingBox) (meta : M) :
    Quadtree M :=
  insertFuel_rd rd t.rank t aabb meta

/-- The method `query_region(search_area)` on rounded arithmetic. -/
def query_region_rd [DecidableEq M] (rd : ℚ → ℚ) :
    Quadtree M → AxisAlignedBoundingBox → List (Element M)
  | leaf b _ _ els, search_area =>
      if !collides_rd rd b search_area then []
      else els.foldl
        (fun r el => if collides_rd rd el.box search_area then List.insert el r else r) []
  | node b _ _ els northeast northwest southeast southwest, search_area =>
      if !collides_rd rd b search_area then []
      else
        let result := els.foldl
          (fun r el => if collides_rd rd el.box search_area then List.insert el r else r) []
        let ne := northeast.query_region_rd rd search_area
        let nw := northwest.query_region_rd rd search_area
        let se := southeast.query_region_rd rd search_area
        let sw := southwest.query_region_rd rd search_area
        insertRange (insertRange (insertRange (insertRange result ne) nw) se) sw

/-- The tree after a sequence of `insert` calls on rounded arithmetic. -/
def insertAll_rd (rd : ℚ → ℚ) (t : Quadtree M) (ops : List (Element M)) : Quadtree M :=
  ops.foldl (fun t el => t.insert_rd rd el.box el.data) t

end Quadtree

/-! ## Lemmas -/

namespace Quadtree

variable {M : Type}

theorem collides_iff (a b : AxisAlignedBoundingBox) :
    collides a b = true ↔
      a.x < b.x + b.w ∧ b.x < a.x + a.w ∧ a.y < b.y + b.h ∧ b.y < a.y + a.h := by
  simp [collides, and_assoc]

theorem rank_pos (t : Quadtree M) : 0 < t.rank := by
  cases t <;> simp [rank]

theorem rank_push_back (t : Quadtree M) (el : Element M) : (t.push_back el).rank = t.rank := by
  cases t <;> simp [rank, push_back]

theorem rank_place_le (ins : Quadtree M → AxisAlignedBoundingBox → M → Quadtree M)
    (h : ∀ c a m, (ins c a m).rank ≤ c.rank) (s : Quadtree M) (el : Element M) :
    (place ins s el).rank ≤ s.rank := by
  cases s with
  | leaf b c d els => simp [place, rank]
  | node b c d els ne nw se sw =>
    simp only [place, rank]
    have h1 := h ne el.box el.data
    have h2 := h nw el.box el.data
    have h3 := h se el.box el.data
    have h4 := h sw el.box el.data
    split_ifs <;> omega

theorem rank_foldl_place_le (ins : Quadtree M → AxisAlignedBoundingBox → M → Quadtree M)
    (h : ∀ c a m, (ins c a m).rank ≤ c.rank) (els : List (Element M)) (s : Quadtree M) :
    (els.foldl (place ins) s).rank ≤ s.rank := by
  induction els generalizing s with
  | nil => simp
  | cons x xs ih =>
    simp only [List.foldl_cons]
    exact le_trans (ih _) (rank_place_le ins h s x)

theorem rank_subdivide_clear (b : AxisAlignedBoundingBox) (c d : Nat) (els : List (Element M))
    (hd : d < max_depth) :
    ((leaf b c d els).subdivide.clear).rank = (leaf b c d els).rank := by
  simp [subdivide, clear, rank, mk, depth]
  omega

theorem rank_insertFuel_le (n : Nat) (t : Quadtree M) (a : AxisAlignedBoundingBox) (m : M) :
    (insertFuel n t a m).rank ≤ t.rank := by
  induction n generalizing t a m with
  | zero => simp [insertFuel]
  | succ n ih =>
    unfold insertFuel
    split_ifs with h1 h2 h3 h4
    · exact le_refl _
    · exact le_of_eq (rank_push_back _ _)
    · exact le_of_eq (rank_push_back _ _)
    · cases t with
      | node b c d els ne nw se sw => simp [divided] at h4
      | leaf b c d els =>
        refine le_trans (rank_place_le _ ih _ _) ?_
        refine le_trans (rank_foldl_place_le _ ih _ _) ?_
        exact le_of_eq (rank_subdivide_clear b c d els (by simpa [depth] using h2))
    · exact rank_place_le _ ih _ _

theorem divided_place (ins : Quadtree M → AxisAlignedBoundingBox → M → Quadtree M)
    (s : Quadtree M) (el : Element M) : (place ins s el).divided = s.divided := by
  cases s <;> simp [place, divided]

theorem rank_node_le {b : AxisAlignedBoundingBox} {c d : Nat} {els : List (Element M)}
    {ne nw se sw : Quadtree M} {n : Nat} (h : (node b c d els ne nw se sw).rank ≤ n + 1) :
    ne.rank ≤ n ∧ nw.rank ≤ n ∧ se.rank ≤ n ∧ sw.rank ≤ n := by
  simp only [rank] at h
  omega

theorem steps_foldl_place
    (R Q : Quadtree M → Element M → Quadtree M → Prop) (n : Nat)
    (ih : ∀ (t : Quadtree M) (el : Element M), t.rank ≤ n → R t el (insertFuel n t el.box el.data))
    (plc : ∀ (ins : Quadtree M → AxisAlignedBoundingBox → M → Quadtree M) b c d els ne nw se sw el,
      (collides ne.boundary el.box = true → R ne el (ins ne el.box el.data)) →
      (collides nw.boundary el.box = true → R nw el (ins nw el.box el.data)) →
      (collides se.boundary el.box = true → R se el (ins se el.box el.data)) →
      (collides sw.boundary el.box = true → R sw el (ins sw el.box el.data)) →
      Q (node b c d els ne nw se sw) el (place ins (node b c d els ne nw se sw) el))
    (els : List (Element M)) (s : Quadtree M) (hs : s.rank ≤ n + 1) (hd : s.divided = true) :
    Steps Q els s (els.foldl (place (insertFuel n)) s) ∧
      (els.foldl (place (insertFuel n)) s).rank ≤ n + 1 ∧
      (els.foldl (place (insertFuel n)) s).divided = true := by
  induction els generalizing s with
  | nil => exact ⟨Steps.nil s, hs, hd⟩
  | cons x xs ihx =>
    simp only [List.foldl_cons]
    have hs1 : (place (insertFuel n) s x).rank ≤ n + 1 :=
      le_trans (rank_place_le _ (rank_insertFuel_le n) s x) hs
    have hd1 : (place (insertFuel n) s x).divided = true := by
      rw [divided_place]; exact hd
    obtain ⟨h1, h2, h3⟩ := ihx _ hs1 hd1
    refine ⟨Steps.cons ?_ h1, h2, h3⟩
    cases s with
    | leaf b c d els => simp [divided] at hd
    | node b c d els ne nw se sw =>
      obtain ⟨r1, r2, r3, r4⟩ := rank_node_le hs
      exact plc _ b c d els ne nw se sw x (fun _ => ih ne x r1) (fun _ => ih nw x r2)
        (fun _ => ih se x r3) (fun _ => ih sw x r4)

/-- Induction principle for `insert`: `R` relates a node, the inserted element and the node
after `insert`; `Q` does the same for the block that hands an element to the children. -/
theorem insertFuel_rel
    (R Q : Quadtree M → Element M → Quadtree M → Prop)
    (skip : ∀ t el, collides t.boundary el.box = false → R t el t)
    (push : ∀ t el, collides t.boundary el.box = true →
      (max_depth ≤ t.depth ∨ (t.divided = false ∧ t.elements.length < t.capacity)) →
      R t el (t.push_back el))
    (plc : ∀ (ins : Quadtree M → AxisAlignedBoundingBox → M → Quadtree M) b c d els ne nw se sw el,
      (collides ne.boundary el.box = true → R ne el (ins ne el.box el.data)) →
      (collides nw.boundary el.box = true → R nw el (ins nw el.box el.data)) →
      (collides se.boundary el.box = true → R se el (ins se el.box el.data)) →
      (collides sw.boundary el.box = true → R sw el (ins sw el.box el.data)) →
      Q (node b c d els ne nw se sw) el (place ins (node b c d els ne nw se sw) el))
    (div : ∀ t el t1, t.divided = true → collides t.boundary el.box = true →
      t.depth < max_depth → Q t el t1 → R t el t1)
    (sub : ∀ b c d els el s t1, collides b el.box = true → d < max_depth → c ≤ els.length →
      Steps Q els (leaf b c d els).subdivide.clear s → Q s el t1 → R (leaf b c d els) el t1)
    (n : Nat) (t : Quadtree M) (el : Element M) (hn : t.rank ≤ n) :
    R t el (insertFuel n t el.box el.data) := by
  induction n generalizing t el with
  | zero => have := rank_pos t; omega
  | succ n ih =>
    unfold insertFuel
    split_ifs with h1 h2 h3 h4
    · exact skip t el (by simpa using h1)
    · exact push t el (by simpa using h1) (Or.inl h2)
    · refine push t el (by simpa using h1) (Or.inr ?_)
      simpa using h3
    · cases t with
      | node b c d els ne nw se sw => simp [divided] at h4
      | leaf b c d els =>
        have hd : d < max_depth := by simpa [depth] using h2
        have hc : c ≤ els.length := by simpa [divided, elements, capacity] using h3
        have hs0 : ((leaf b c d els).subdivide.clear).rank ≤ n + 1 := by
          rw [rank_subdivide_clear b c d els hd]; exact hn
        obtain ⟨st, hr, hdv⟩ := steps_foldl_place R Q n ih plc els
          ((leaf b c d els).subdivide.clear) hs0 (by simp [subdivide, clear, divided])
        refine sub b c d els el _ _ (by simpa [boundary] using h1) hd hc st ?_
        simp only [elements]
        generalize (els.foldl (place (insertFuel n)) (leaf b c d els).subdivide.clear) = s at hr hdv
        cases s with
        | leaf b c d els => simp [divided] at hdv
        | node b c d els ne nw se sw =>
          obtain ⟨r1, r2, r3, r4⟩ := rank_node_le hr
          exact plc _ b c d els ne nw se sw el (fun _ => ih ne el r1) (fun _ => ih nw el r2)
            (fun _ => ih se el r3) (fun _ => ih sw el r4)
    · cases t with
      | leaf b c d els => simp [divided] at h4
      | node b c d els ne nw se sw =>
        obtain ⟨r1, r2, r3, r4⟩ := rank_node_le hn
        refine div _ el _ (by simp [divided]) (by simpa using h1) (by simpa using h2) ?_
        exact plc _ b c d els ne nw se sw el (fun _ => ih ne el r1) (fun _ => ih nw el r2)
            (fun _ => ih se el r3) (fun _ => ih sw el r4)

/-! ### The deduplicating set -/

theorem mem_insertRange [DecidableEq M] (r acc : List (Element M)) (x : Element M) :
    x ∈ insertRange acc r ↔ x ∈ acc ∨ x ∈ r := by
  induction r generalizing acc with
  | nil => simp [insertRange]
  | cons y ys ih =>
    have := ih (List.insert y acc)
    simp only [insertRange, List.foldl_cons] at this ⊢
    rw [this]
    simp only [List.mem_insert_iff, List.mem_cons]
    tauto

theorem nodup_insertRange [DecidableEq M] (r acc : List (Element M)) (h : acc.Nodup) :
    (insertRange acc r).Nodup := by
  induction r generalizing acc with
  | nil => simpa [insertRange] using h
  | cons y ys ih =>
    have := ih (List.insert y acc) (h.insert)
    simpa [insertRange, List.foldl_cons] using this

theorem mem_scan [DecidableEq M] (R : AxisAlignedBoundingBox) (els acc : List (Element M))
    (x : Element M) :
    x ∈ scan R els acc ↔ x ∈ acc ∨ (x ∈ els ∧ collides x.box R = true) := by
  induction els generalizing acc with
  | nil => simp [scan]
  | cons y ys ih =>
    have := ih (if collides y.box R then List.insert y acc else acc)
    simp only [scan, List.foldl_cons] at this ⊢
    rw [this]
    by_cases hy : collides y.box R = true
    · simp only [hy, if_true, List.mem_insert_iff, List.mem_cons]
      constructor
      · rintro ((h | h) | h)
        · right; exact ⟨Or.inl h, h ▸ hy⟩
        · left; exact h
        · right; exact ⟨Or.inr h.1, h.2⟩
      · rintro (h | ⟨h | h, h2⟩)
        · left; right; exact h
        · left; left; exact h
        · right; exact ⟨h, h2⟩
    · simp only [hy, List.mem_cons]
      constructor
      · rintro (h | h)
        · left; exact h
        · right; exact ⟨Or.inr h.1, h.2⟩
      · rintro (h | ⟨h | h, h2⟩)
        · left; exact h
        · exact absurd (h ▸ h2) hy
        · right; exact ⟨h, h2⟩

theorem nodup_scan [DecidableEq M] (R : AxisAlignedBoundingBox) (els acc : List (Element M))
    (h : acc.Nodup) : (scan R els acc).Nodup := by
  induction els generalizing acc with
  | nil => simpa [scan] using h
  | cons y ys ih =>
    have := ih (if collides y.box R then List.insert y acc else acc)
      (by split_ifs; exact h.insert; exact h)
    simpa [scan, List.foldl_cons] using this

/-! ### `query_region` -/

theorem query_region_leaf [DecidableEq M] (b : AxisAlignedBoundingBox) (c d : Nat)
    (els : List (Element M)) (R : AxisAlignedBoundingBox) :
    (leaf b c d els).query_region R = if collides b R then scan R els [] else [] := by
  simp only [query_region, scan]
  cases collides b R <;> simp

theorem query_region_node [DecidableEq M] (b : AxisAlignedBoundingBox) (c d : Nat)
    (els : List (Element M)) (ne nw se sw : Quadtree M) (R : AxisAlignedBoundingBox) :
    (node b c d els ne nw se sw).query_region R =
      if collides b R then
        insertRange (insertRange (insertRange (insertRange (scan R els [])
          (ne.query_region R)) (nw.query_region R)) (se.query_region R)) (sw.query_region R)
      else [] := by
  simp only [query_region, scan]
  cases collides b R <;> simp

theorem mem_query_region_node [DecidableEq M] (b : AxisAlignedBoundingBox) (c d : Nat)
    (els : List (Element M)) (ne nw se sw : Quadtree M) (R : AxisAlignedBoundingBox)
    (x : Element M) :
    x ∈ (node b c d els ne nw se sw).query_region R ↔
      collides b R = true ∧ ((x ∈ els ∧ collides x.box R = true) ∨ x ∈ ne.query_region R ∨
        x ∈ nw.query_region R ∨ x ∈ se.query_region R ∨ x ∈ sw.query_region R) := by
  rw [query_region_node]
  by_cases hb : collides b R = true
  · simp only [hb, if_true, mem_insertRange, mem_scan, List.not_mem_nil, false_or, true_and]
    tauto
  · simp [hb]

theorem mem_query_region_leaf [DecidableEq M] (b : AxisAlignedBoundingBox) (c d : Nat)
    (els : List (Element M)) (R : AxisAlignedBoundingBox) (x : Element M) :
    x ∈ (leaf b c d els).query_region R ↔
      collides b R = true ∧ x ∈ els ∧ collides x.box R = true := by
  rw [query_region_leaf]
  by_cases hb : collides b R = true
  · simp [hb, mem_scan]
  · simp [hb]

theorem nodup_query_region [DecidableEq M] (t : Quadtree M) (R : AxisAlignedBoundingBox) :
    (t.query_region R).Nodup := by
  cases t with
  | leaf b c d els =>
    rw [query_region_leaf]
    split_ifs
    · exact nodup_scan R els [] List.nodup_nil
    · exact List.nodup_nil
  | node b c d els ne nw se sw =>
    rw [query_region_node]
    split_ifs
    · exact nodup_insertRange _ _ (nodup_insertRange _ _ (nodup_insertRange _ _
        (nodup_insertRange _ _ (nodup_scan R els [] List.nodup_nil))))
    · exact List.nodup_nil

theorem collides_of_mem_query_region [DecidableEq M] (t : Quadtree M)
    (R : AxisAlignedBoundingBox) (x : Element M) (h : x ∈ t.query_region R) :
    collides x.box R = true := by
  induction t with
  | leaf b c d els =>
    rw [mem_query_region_leaf] at h
    exact h.2.2
  | node b c d els ne nw se sw ih1 ih2 ih3 ih4 =>
    rw [mem_query_region_node] at h
    rcases h.2 with h | h | h | h | h
    · exact h.2
    · exact ih1 h
    · exact ih2 h
    · exact ih3 h
    · exact ih4 h

theorem mem_stored_of_mem_query_region [DecidableEq M] (t : Quadtree M)
    (R : AxisAlignedBoundingBox) (x : Element M) (h : x ∈ t.query_region R) :
    x ∈ t.stored := by
  induction t with
  | leaf b c d els =>
    rw [mem_query_region_leaf] at h
    exact h.2.1
  | node b c d els ne nw se sw ih1 ih2 ih3 ih4 =>
    rw [mem_query_region_node] at h
    simp only [stored, List.mem_append]
    rcases h.2 with h | h | h | h | h
    · exact Or.inl h.1
    · exact Or.inr (Or.inl (ih1 h))
    · exact Or.inr (Or.inr (Or.inl (ih2 h)))
    · exact Or.inr (Or.inr (Or.inr (Or.inl (ih3 h))))
    · exact Or.inr (Or.inr (Or.inr (Or.inr (ih4 h))))

theorem query_region_of_not_collides [DecidableEq M] (t : Quadtree M)
    (R : AxisAlignedBoundingBox) (h : collides t.boundary R = false) :
    t.query_region R = [] := by
  cases t <;> simp_all [query_region, boundary]

/-! ### `collect_all_unique` -/

theorem mem_collect_all_unique [DecidableEq M] (t : Quadtree M) (acc : List (Element M))
    (x : Element M) : x ∈ t.collect_all_unique acc ↔ x ∈ acc ∨ x ∈ t.stored := by
  induction t generalizing acc with
  | leaf b c d els => simp [collect_all_unique, stored, mem_insertRange]
  | node b c d els ne nw se sw ih1 ih2 ih3 ih4 =>
    simp only [collect_all_unique, stored, ih1, ih2, ih3, ih4, mem_insertRange, List.mem_append]
    tauto

theorem nodup_collect_all_unique [DecidableEq M] (t : Quadtree M) (acc : List (Element M))
    (h : acc.Nodup) : (t.collect_all_unique acc).Nodup := by
  induction t generalizing acc with
  | leaf b c d els => exact nodup_insertRange _ _ h
  | node b c d els ne nw se sw ih1 ih2 ih3 ih4 =>
    exact ih4 _ (ih3 _ (ih2 _ (ih1 _ (nodup_insertRange _ _ h))))

theorem mem_allEntries [DecidableEq M] (t : Quadtree M) (x : Element M) :
    x ∈ t.allEntries ↔ x ∈ t.stored := by
  simp [allEntries, mem_collect_all_unique]

theorem nodup_allEntries [DecidableEq M] (t : Quadtree M) : t.allEntries.Nodup :=
  nodup_collect_all_unique t [] List.nodup_nil

/-! ### `insert`: the result does not depend on the fuel -/

theorem insertFuel_skip (n : Nat) (t : Quadtree M) (a : AxisAlignedBoundingBox) (m : M)
    (h : collides t.boundary a = false) : insertFuel n t a m = t := by
  cases n with
  | zero => rfl
  | succ n => simp [insertFuel, h]

theorem steps_mono {Q Q2 : Quadtree M → Element M → Quadtree M → Prop}
    (h : ∀ s x s1, Q s x s1 → Q2 s x s1) {xs : List (Element M)} {s s2 : Quadtree M}
    (st : Steps Q xs s s2) : Steps Q2 xs s s2 := by
  induction st with
  | nil s => exact Steps.nil s
  | cons hq _ ih => exact Steps.cons (h _ _ _ hq) ih

/-- An invariant kept by every step is kept by a chain of steps. -/
theorem steps_invariant {Q : Quadtree M → Element M → Quadtree M → Prop}
    (I : Quadtree M → Prop) (h : ∀ s x s1, Q s x s1 → I s → I s1)
    {xs : List (Element M)} {s s2 : Quadtree M} (st : Steps Q xs s s2) (hs : I s) : I s2 := by
  induction st with
  | nil s => exact hs
  | cons hq _ ih => exact ih (h _ _ _ hq hs)

/-- The induction principle of `insertFuel_rel`, for `insert`. -/
theorem insert_rel
    (R Q : Quadtree M → Element M → Quadtree M → Prop)
    (skip : ∀ t el, collides t.boundary el.box = false → R t el t)
    (push : ∀ t el, collides t.boundary el.box = true →
      (max_depth ≤ t.depth ∨ (t.divided = false ∧ t.elements.length < t.capacity)) →
      R t el (t.push_back el))
    (plc : ∀ (ins : Quadtree M → AxisAlignedBoundingBox → M → Quadtree M) b c d els ne nw se sw el,
      (collides ne.boundary el.box = true → R ne el (ins ne el.box el.data)) →
      (collides nw.boundary el.box = true → R nw el (ins nw el.box el.data)) →
      (collides se.boundary el.box = true → R se el (ins se el.box el.data)) →
      (collides sw.boundary el.box = true → R sw el (ins sw el.box el.data)) →
      Q (node b c d els ne nw se sw) el (place ins (node b c d els ne nw se sw) el))
    (div : ∀ t el t1, t.divided = true → collides t.boundary el.box = true →
      t.depth < max_depth → Q t el t1 → R t el t1)
    (sub : ∀ b c d els el s t1, collides b el.box = true → d < max_depth → c ≤ els.length →
      Steps Q els (leaf b c d els).subdivide.clear s → Q s el t1 → R (leaf b c d els) el t1)
    (t : Quadtree M) (el : Element M) :
    R t el (t.insert el.box el.data) :=
  insertFuel_rel R Q skip push plc div sub t.rank t el (le_refl _)

theorem foldl_place_of_steps (k : Nat) {xs : List (Element M)} {s s2 : Quadtree M}
    (st : Steps (fun s x s1 => ∀ j, s.rank ≤ j + 1 → place (insertFuel j) s x = s1) xs s s2)
    (hs : s.rank ≤ k + 1) :
    xs.foldl (place (insertFuel k)) s = s2 ∧ s2.rank ≤ k + 1 := by
  induction st with
  | nil s => exact ⟨rfl, hs⟩
  | cons hq _ ih =>
    simp only [List.foldl_cons]
    rw [hq k hs]
    apply ih
    rw [← hq k hs]
    exact le_trans (rank_place_le _ (rank_insertFuel_le k) _ _) hs

/-- Fuel beyond `rank` does not change the result: `insert` is a total function and the
out-of-fuel case of `insertFuel` is never reached from it. -/
theorem insertFuel_eq_insert (t : Quadtree M) (a : AxisAlignedBoundingBox) (m : M) (k : Nat)
    (hk : t.rank ≤ k) : insertFuel k t a m = t.insert a m := by
  have key := insert_rel
    (fun t el t1 => ∀ k, t.rank ≤ k → insertFuel k t el.box el.data = t1)
    (fun s el s1 => ∀ j, s.rank ≤ j + 1 → place (insertFuel j) s el = s1)
    (by
      intro t el h k _
      exact insertFuel_skip k t _ _ h)
    (by
      intro t el h1 h2 k hk
      cases k with
      | zero => have := rank_pos t; omega
      | succ k =>
        unfold insertFuel
        rcases h2 with h2 | ⟨h2, h3⟩
        · simp [h1, h2]
        · simp [h1, h2, h3])
    (by
      intro ins b c d els ne nw se sw el h1 h2 h3 h4 j hj
      obtain ⟨r1, r2, r3, r4⟩ := rank_node_le hj
      simp only [place]
      congr 1
      · split_ifs with h
        · exact h1 h j r1
        · rfl
      · split_ifs with h
        · exact h2 h j r2
        · rfl
      · split_ifs with h
        · exact h3 h j r3
        · rfl
      · split_ifs with h
        · exact h4 h j r4
        · rfl)
    (by
      intro t el t1 hd hc hdep hq k hk
      cases k with
      | zero => have := rank_pos t; omega
      | succ k =>
        unfold insertFuel
        have : ¬ max_depth ≤ t.depth := by omega
        simp [hc, hd, this]
        exact hq k hk)
    (by
      intro b c d els el s t1 hc hd hlen st hq k hk
      cases k with
      | zero => have := rank_pos (leaf b c d els); omega
      | succ k =>
        unfold insertFuel
        have h1 : ¬ max_depth ≤ d := by omega
        have h2 : ¬ els.length < c := by omega
        have hs0 : ((leaf b c d els).subdivide.clear).rank ≤ k + 1 := by
          rw [rank_subdivide_clear b c d els hd]; exact hk
        obtain ⟨e1, e2⟩ := foldl_place_of_steps k st hs0
        simp only [boundary, depth, divided, elements, capacity, hc, h1, h2]
        simp [e1]
        exact hq k e2)
    t ⟨a, m⟩
  exact key k hk



/-! ### `insert`: boundary and stored elements -/

theorem boundary_push_back (t : Quadtree M) (el : Element M) :
    (t.push_back el).boundary = t.boundary := by
  cases t <;> rfl

theorem mem_stored_push_back (t : Quadtree M) (el x : Element M) :
    x ∈ (t.push_back el).stored ↔ x ∈ t.stored ∨ x = el := by
  cases t
  · simp only [push_back, stored, List.mem_append, List.mem_singleton]
  · simp only [push_back, stored, List.mem_append, List.mem_singleton]
    tauto

theorem boundary_place (ins : Quadtree M → AxisAlignedBoundingBox → M → Quadtree M)
    (s : Quadtree M) (el : Element M) : (place ins s el).boundary = s.boundary := by
  cases s <;> rfl

theorem stored_subdivide_clear (b : AxisAlignedBoundingBox) (c d : Nat)
    (els : List (Element M)) : ((leaf b c d els).subdivide.clear).stored = [] := by
  simp [subdivide, clear, stored, mk]

theorem boundary_subdivide_clear (t : Quadtree M) : (t.subdivide.clear).boundary = t.boundary := by
  simp [subdivide, clear, boundary]

theorem mem_stored_child (ins : Quadtree M → AxisAlignedBoundingBox → M → Quadtree M)
    (c : Quadtree M) (el : Element M)
    (h : collides c.boundary el.box = true → ∀ x, x ∈ (ins c el.box el.data).stored ↔
      x ∈ c.stored ∨ (x = el ∧ collides c.boundary el.box = true)) (x : Element M) :
    x ∈ (if collides c.boundary el.box = true then ins c el.box el.data else c).stored ↔
      x ∈ c.stored ∨ (x = el ∧ collides c.boundary el.box = true) := by
  split_ifs with hc
  · exact h hc x
  · simp [hc]

theorem mem_placed_buffer (placed : Bool) (els : List (Element M)) (el x : Element M) :
    x ∈ (if placed = true then els else els ++ [el]) ↔ x ∈ els ∨ (x = el ∧ placed = false) := by
  cases placed <;> simp

theorem mem_stored_place (ins : Quadtree M → AxisAlignedBoundingBox → M → Quadtree M)
    (b : AxisAlignedBoundingBox) (c d : Nat) (els : List (Element M))
    (ne nw se sw : Quadtree M) (el : Element M)
    (h1 : collides ne.boundary el.box = true → ∀ x, x ∈ (ins ne el.box el.data).stored ↔
      x ∈ ne.stored ∨ (x = el ∧ collides ne.boundary el.box = true))
    (h2 : collides nw.boundary el.box = true → ∀ x, x ∈ (ins nw el.box el.data).stored ↔
      x ∈ nw.stored ∨ (x = el ∧ collides nw.boundary el.box = true))
    (h3 : collides se.boundary el.box = true → ∀ x, x ∈ (ins se el.box el.data).stored ↔
      x ∈ se.stored ∨ (x = el ∧ collides se.boundary el.box = true))
    (h4 : collides sw.boundary el.box = true → ∀ x, x ∈ (ins sw el.box el.data).stored ↔
      x ∈ sw.stored ∨ (x = el ∧ collides sw.boundary el.box = true)) (x : Element M) :
    x ∈ (place ins (node b c d els ne nw se sw) el).stored ↔
      x ∈ (node b c d els ne nw se sw).stored ∨ x = el := by
  have e1 := mem_stored_child ins ne el h1 x
  have e2 := mem_stored_child ins nw el h2 x
  have e3 := mem_stored_child ins se el h3 x
  have e4 := mem_stored_child ins sw el h4 x
  simp only [place, stored, List.mem_append, e1, e2, e3, e4, mem_placed_buffer]
  generalize collides ne.boundary el.box = p1
  generalize collides nw.boundary el.box = p2
  generalize collides se.boundary el.box = p3
  generalize collides sw.boundary el.box = p4
  by_cases hE : x = el
  · simp only [hE, true_and, or_true, iff_true]
    cases p1 <;> cases p2 <;> cases p3 <;> cases p4 <;> simp
  · simp only [hE, false_and, or_false]

/-- What `insert` does to the boundary and to the stored elements of a node. -/
theorem insert_boundary_stored (t : Quadtree M) (el : Element M) :
    (t.insert el.box el.data).boundary = t.boundary ∧
      ∀ x, x ∈ (t.insert el.box el.data).stored ↔
        x ∈ t.stored ∨ (x = el ∧ collides t.boundary el.box = true) := by
  refine insert_rel
    (fun t el t1 => t1.boundary = t.boundary ∧
      ∀ x, x ∈ t1.stored ↔ x ∈ t.stored ∨ (x = el ∧ collides t.boundary el.box = true))
    (fun s el s1 => s1.boundary = s.boundary ∧ ∀ x, x ∈ s1.stored ↔ x ∈ s.stored ∨ x = el)
    ?_ ?_ ?_ ?_ ?_ t el
  · intro t el h
    simp [h]
  · intro t el h _
    exact ⟨boundary_push_back t el, fun x => by simp [mem_stored_push_back, h]⟩
  · intro ins b c d els ne nw se sw el h1 h2 h3 h4
    exact ⟨rfl, mem_stored_place ins b c d els ne nw se sw el (fun h => (h1 h).2)
      (fun h => (h2 h).2) (fun h => (h3 h).2) (fun h => (h4 h).2)⟩
  · intro t el t1 _ hc _ hq
    exact ⟨hq.1, fun x => by rw [hq.2 x]; simp [hc]⟩
  · intro b c d els el s t1 hc _ _ st hq
    have hs : s.boundary = b ∧ ∀ x, x ∈ s.stored ↔ x ∈ els := by
      have gen : ∀ (xs : List (Element M)) (s0 s2 : Quadtree M),
          Steps (fun s el s1 => s1.boundary = s.boundary ∧
            ∀ x, x ∈ s1.stored ↔ x ∈ s.stored ∨ x = el) xs s0 s2 →
          s2.boundary = s0.boundary ∧ ∀ x, x ∈ s2.stored ↔ x ∈ s0.stored ∨ x ∈ xs := by
        intro xs s0 s2 st
        induction st with
        | nil s => simp
        | cons hq _ ih =>
          refine ⟨ih.1.trans hq.1, fun x => ?_⟩
          rw [ih.2 x, hq.2 x, List.mem_cons]
          tauto
      have := gen els _ s st
      rw [stored_subdivide_clear, boundary_subdivide_clear] at this
      simpa [boundary] using this
    refine ⟨by rw [hq.1, hs.1]; rfl, fun x => ?_⟩
    rw [hq.2 x, hs.2 x]
    simp [stored, boundary, hc]

/-! ### Sequences of `insert` calls -/

theorem insertAll_nil (t : Quadtree M) : t.insertAll [] = t := rfl

theorem insertAll_cons (t : Quadtree M) (el : Element M) (ops : List (Element M)) :
    t.insertAll (el :: ops) = (t.insert el.box el.data).insertAll ops := rfl

theorem boundary_insert (t : Quadtree M) (a : AxisAlignedBoundingBox) (m : M) :
    (t.insert a m).boundary = t.boundary :=
  (insert_boundary_stored t ⟨a, m⟩).1

theorem boundary_insertAll (t : Quadtree M) (ops : List (Element M)) :
    (t.insertAll ops).boundary = t.boundary := by
  induction ops generalizing t with
  | nil => rfl
  | cons el ops ih => rw [insertAll_cons, ih, boundary_insert]

theorem mem_stored_insertAll (t : Quadtree M) (ops : List (Element M)) (x : Element M) :
    x ∈ (t.insertAll ops).stored ↔
      x ∈ t.stored ∨ (x ∈ ops ∧ collides t.boundary x.box = true) := by
  induction ops generalizing t with
  | nil => simp [insertAll_nil]
  | cons el ops ih =>
    rw [insertAll_cons, ih, (insert_boundary_stored t el).2 x, boundary_insert, List.mem_cons]
    constructor
    · rintro ((h | ⟨h, h2⟩) | ⟨h, h2⟩)
      · exact Or.inl h
      · exact Or.inr ⟨Or.inl h, h ▸ h2⟩
      · exact Or.inr ⟨Or.inr h, h2⟩
    · rintro (h | ⟨h | h, h2⟩)
      · exact Or.inl (Or.inl h)
      · exact Or.inl (Or.inr ⟨h, h ▸ h2⟩)
      · exact Or.inr ⟨h, h2⟩

theorem insert_of_not_collides (t : Quadtree M) (a : AxisAlignedBoundingBox) (m : M)
    (h : collides t.boundary a = false) : t.insert a m = t :=
  insertFuel_skip _ t a m h

/-! ### Geometry of the quadrants -/

theorem half_axis (bx bw ex ew rx rw : ℚ) (hr : 0 < rw)
    (be1 : bx < ex + ew) (be2 : ex < bx + bw) (br1 : bx < rx + rw) (br2 : rx < bx + bw)
    (er1 : ex < rx + rw) (er2 : rx < ex + ew)
    (S : (bx < ex + ew ∧ ex < bx + bw / 2) ∨
      (bx + bw / 2 < ex + ew ∧ ex < bx + bw / 2 + bw / 2)) :
    ((bx < ex + ew ∧ ex < bx + bw / 2) ∧ (bx < rx + rw ∧ rx < bx + bw / 2)) ∨
      ((bx + bw / 2 < ex + ew ∧ ex < bx + bw / 2 + bw / 2) ∧
        (bx + bw / 2 < rx + rw ∧ rx < bx + bw / 2 + bw / 2)) := by
  by_cases hew : 0 < ew
  · by_cases h1 : ex < bx + bw / 2
    · by_cases h2 : rx < bx + bw / 2
      · exact Or.inl ⟨⟨be1, h1⟩, ⟨br1, h2⟩⟩
      · push_neg at h2
        refine Or.inr ⟨⟨by linarith, by linarith⟩, ⟨by linarith, by linarith⟩⟩
    · push_neg at h1
      refine Or.inr ⟨⟨by linarith, by linarith⟩, ⟨by linarith, by linarith⟩⟩
  · push_neg at hew
    rcases S with ⟨s1, s2⟩ | ⟨s1, s2⟩
    · exact Or.inl ⟨⟨s1, s2⟩, ⟨br1, by linarith⟩⟩
    · exact Or.inr ⟨⟨s1, s2⟩, ⟨by linarith, by linarith⟩⟩

/-- In a node of positive extent, an element that collides with the node, with a query
rectangle of positive extent and with some child boundary collides, together with the query
rectangle, with one and the same child boundary. -/
theorem exists_quadrant (b e r : AxisAlignedBoundingBox) (hrw : 0 < r.w) (hrh : 0 < r.h)
    (be : collides b e = true) (br : collides b r = true) (er : collides e r = true)
    (S : collides ⟨b.x + b.w / 2, b.y, b.w / 2, b.h / 2⟩ e = true ∨
      collides ⟨b.x, b.y, b.w / 2, b.h / 2⟩ e = true ∨
      collides ⟨b.x + b.w / 2, b.y + b.h / 2, b.w / 2, b.h / 2⟩ e = true ∨
      collides ⟨b.x, b.y + b.h / 2, b.w / 2, b.h / 2⟩ e = true) :
    (collides ⟨b.x + b.w / 2, b.y, b.w / 2, b.h / 2⟩ e = true ∧
        collides ⟨b.x + b.w / 2, b.y, b.w / 2, b.h / 2⟩ r = true) ∨
      (collides ⟨b.x, b.y, b.w / 2, b.h / 2⟩ e = true ∧
        collides ⟨b.x, b.y, b.w / 2, b.h / 2⟩ r = true) ∨
      (collides ⟨b.x + b.w / 2, b.y + b.h / 2, b.w / 2, b.h / 2⟩ e = true ∧
        collides ⟨b.x + b.w / 2, b.y + b.h / 2, b.w / 2, b.h / 2⟩ r = true) ∨
      (collides ⟨b.x, b.y + b.h / 2, b.w / 2, b.h / 2⟩ e = true ∧
        collides ⟨b.x, b.y + b.h / 2, b.w / 2, b.h / 2⟩ r = true) := by
  simp only [collides_iff] at be br er S ⊢
  obtain ⟨be1, be2, be3, be4⟩ := be
  obtain ⟨br1, br2, br3, br4⟩ := br
  obtain ⟨er1, er2, er3, er4⟩ := er
  have Sx : (b.x < e.x + e.w ∧ e.x < b.x + b.w / 2) ∨
      (b.x + b.w / 2 < e.x + e.w ∧ e.x < b.x + b.w / 2 + b.w / 2) := by
    rcases S with h | h | h | h
    · exact Or.inr ⟨h.1, h.2.1⟩
    · exact Or.inl ⟨h.1, h.2.1⟩
    · exact Or.inr ⟨h.1, h.2.1⟩
    · exact Or.inl ⟨h.1, h.2.1⟩
  have Sy : (b.y < e.y + e.h ∧ e.y < b.y + b.h / 2) ∨
      (b.y + b.h / 2 < e.y + e.h ∧ e.y < b.y + b.h / 2 + b.h / 2) := by
    rcases S with h | h | h | h
    · exact Or.inl ⟨h.2.2.1, h.2.2.2⟩
    · exact Or.inl ⟨h.2.2.1, h.2.2.2⟩
    · exact Or.inr ⟨h.2.2.1, h.2.2.2⟩
    · exact Or.inr ⟨h.2.2.1, h.2.2.2⟩
  have X := half_axis b.x b.w e.x e.w r.x r.w hrw be1 be2 br1 br2 er1 er2 Sx
  have Y := half_axis b.y b.h e.y e.h r.y r.h hrh be3 be4 br3 br4 er3 er4 Sy
  rcases X with ⟨⟨x1, x2⟩, ⟨x3, x4⟩⟩ | ⟨⟨x1, x2⟩, ⟨x3, x4⟩⟩ <;>
  rcases Y with ⟨⟨y1, y2⟩, ⟨y3, y4⟩⟩ | ⟨⟨y1, y2⟩, ⟨y3, y4⟩⟩
  · exact Or.inr (Or.inl ⟨⟨x1, x2, y1, y2⟩, ⟨x3, x4, y3, y4⟩⟩)
  · exact Or.inr (Or.inr (Or.inr ⟨⟨x1, x2, y1, y2⟩, ⟨x3, x4, y3, y4⟩⟩))
  · exact Or.inl ⟨⟨x1, x2, y1, y2⟩, ⟨x3, x4, y3, y4⟩⟩
  · exact Or.inr (Or.inr (Or.inl ⟨⟨x1, x2, y1, y2⟩, ⟨x3, x4, y3, y4⟩⟩))

/-- Completeness of `query_region` on a node that keeps `e`. -/
theorem mem_query_region_of_holds [DecidableEq M] (t : Quadtree M) (hq : t.Quadrants)
    (R : AxisAlignedBoundingBox) (hRw : 0 < R.w) (hRh : 0 < R.h) (e : Element M)
    (hH : t.Holds e) (h1 : collides t.boundary e.box = true)
    (h2 : collides t.boundary R = true) (h3 : collides e.box R = true) :
    e ∈ t.query_region R := by
  induction t with
  | leaf b c d els =>
    rw [mem_query_region_leaf]
    exact ⟨h2, hH, h3⟩
  | node b c d els ne nw se sw ih1 ih2 ih3 ih4 =>
    rw [mem_query_region_node]
    refine ⟨h2, ?_⟩
    rcases hH with hH | ⟨S, k1, k2, k3, k4⟩
    · exact Or.inl ⟨hH, h3⟩
    · obtain ⟨q1, q2, q3, q4, w1, w2, w3, w4⟩ := hq
      rw [q1, q2, q3, q4] at S
      have G := exists_quadrant b e.box R hRw hRh h1 h2 h3 S
      rw [← q1, ← q2, ← q3, ← q4] at G
      rcases G with ⟨g1, g2⟩ | ⟨g1, g2⟩ | ⟨g1, g2⟩ | ⟨g1, g2⟩
      · exact Or.inr (Or.inl (ih1 w1 (k1 g1) g1 g2))
      · exact Or.inr (Or.inr (Or.inl (ih2 w2 (k2 g1) g1 g2)))
      · exact Or.inr (Or.inr (Or.inr (Or.inl (ih3 w3 (k3 g1) g1 g2))))
      · exact Or.inr (Or.inr (Or.inr (Or.inr (ih4 w4 (k4 g1) g1 g2))))

/-! ### `insert` keeps the quadrant structure and the elements -/

theorem holds_push_back (t : Quadtree M) (el x : Element M) (h : t.Holds x) :
    (t.push_back el).Holds x := by
  cases t with
  | leaf b c d els => exact List.mem_append_left _ h
  | node b c d els ne nw se sw =>
    rcases h with h | h
    · exact Or.inl (List.mem_append_left _ h)
    · exact Or.inr h

theorem holds_push_back_self (t : Quadtree M) (el : Element M) : (t.push_back el).Holds el := by
  cases t with
  | leaf b c d els => simp [push_back, Holds]
  | node b c d els ne nw se sw => simp [push_back, Holds]

/-- The relation that `insert` establishes between a node, the element and the new node. -/
theorem keeps_child (ins : Quadtree M → AxisAlignedBoundingBox → M → Quadtree M)
    (c : Quadtree M) (el : Element M)
    (h : collides c.boundary el.box = true →
      (ins c el.box el.data).boundary = c.boundary ∧
      (c.Quadrants → (ins c el.box el.data).Quadrants) ∧
      (∀ x, c.Holds x → (ins c el.box el.data).Holds x) ∧
      (collides c.boundary el.box = true → (ins c el.box el.data).Holds el)) :
    (if collides c.boundary el.box = true then ins c el.box el.data else c).boundary =
        c.boundary ∧
      (c.Quadrants →
        (if collides c.boundary el.box = true then ins c el.box el.data else c).Quadrants) ∧
      (∀ x, c.Holds x →
        (if collides c.boundary el.box = true then ins c el.box el.data else c).Holds x) ∧
      (collides c.boundary el.box = true →
        (if collides c.boundary el.box = true then ins c el.box el.data else c).Holds el) := by
  split_ifs with hc
  · exact h hc
  · exact ⟨rfl, id, fun _ hx => hx, fun h => absurd h hc⟩

theorem keeps_place (ins : Quadtree M → AxisAlignedBoundingBox → M → Quadtree M)
    (b : AxisAlignedBoundingBox) (c d : Nat) (els : List (Element M))
    (ne nw se sw : Quadtree M) (el : Element M)
    (h1 : collides ne.boundary el.box = true →
      (ins ne el.box el.data).boundary = ne.boundary ∧
      (ne.Quadrants → (ins ne el.box el.data).Quadrants) ∧
      (∀ x, ne.Holds x → (ins ne el.box el.data).Holds x) ∧
      (collides ne.boundary el.box = true → (ins ne el.box el.data).Holds el))
    (h2 : collides nw.boundary el.box = true →
      (ins nw el.box el.data).boundary = nw.boundary ∧
      (nw.Quadrants → (ins nw el.box el.data).Quadrants) ∧
      (∀ x, nw.Holds x → (ins nw el.box el.data).Holds x) ∧
      (collides nw.boundary el.box = true → (ins nw el.box el.data).Holds el))
    (h3 : collides se.boundary el.box = true →
      (ins se el.box el.data).boundary = se.boundary ∧
      (se.Quadrants → (ins se el.box el.data).Quadrants) ∧
      (∀ x, se.Holds x → (ins se el.box el.data).Holds x) ∧
      (collides se.boundary el.box = true → (ins se el.box el.data).Holds el))
    (h4 : collides sw.boundary el.box = true →
      (ins sw el.box el.data).boundary = sw.boundary ∧
      (sw.Quadrants → (ins sw el.box el.data).Quadrants) ∧
      (∀ x, sw.Holds x → (ins sw el.box el.data).Holds x) ∧
      (collides sw.boundary el.box = true → (ins sw el.box el.data).Holds el)) :
    (place ins (node b c d els ne nw se sw) el).boundary = b ∧
      ((node b c d els ne nw se sw).Quadrants →
        (place ins (node b c d els ne nw se sw) el).Quadrants) ∧
      (∀ x, (node b c d els ne nw se sw).Holds x →
        (place ins (node b c d els ne nw se sw) el).Holds x) ∧
      (place ins (node b c d els ne nw se sw) el).Holds el := by
  obtain ⟨a1, a2, a3, a4⟩ := keeps_child ins ne el h1
  obtain ⟨b1, b2, b3, b4⟩ := keeps_child ins nw el h2
  obtain ⟨c1, c2, c3, c4⟩ := keeps_child ins se el h3
  obtain ⟨d1, d2, d3, d4⟩ := keeps_child ins sw el h4
  simp only [place]
  generalize (if collides ne.boundary el.box = true then ins ne el.box el.data else ne) = ne1
    at a1 a2 a3 a4
  generalize (if collides nw.boundary el.box = true then ins nw el.box el.data else nw) = nw1
    at b1 b2 b3 b4
  generalize (if collides se.boundary el.box = true then ins se el.box el.data else se) = se1
    at c1 c2 c3 c4
  generalize (if collides sw.boundary el.box = true then ins sw el.box el.data else sw) = sw1
    at d1 d2 d3 d4
  refine ⟨rfl, ?_, ?_, ?_⟩
  · rintro ⟨q1, q2, q3, q4, w1, w2, w3, w4⟩
    exact ⟨a1.trans q1, b1.trans q2, c1.trans q3, d1.trans q4, a2 w1, b2 w2, c2 w3, d2 w4⟩
  · intro x hx
    rcases hx with hx | ⟨S, k1, k2, k3, k4⟩
    · left
      split_ifs
      · exact hx
      · exact List.mem_append_left _ hx
    · right
      rw [a1, b1, c1, d1]
      exact ⟨S, fun h => a3 x (k1 h), fun h => b3 x (k2 h), fun h => c3 x (k3 h),
        fun h => d3 x (k4 h)⟩
  · by_cases hp : (collides ne.boundary el.box || collides nw.boundary el.box ||
        collides se.boundary el.box || collides sw.boundary el.box) = true
    · right
      rw [a1, b1, c1, d1]
      refine ⟨?_, a4, b4, c4, d4⟩
      simpa [or_assoc] using hp
    · left
      simp [hp]

theorem keeps_steps {xs : List (Element M)} {s s2 : Quadtree M}
    (st : Steps (fun s el s1 => s1.boundary = s.boundary ∧ (s.Quadrants → s1.Quadrants) ∧
      (∀ x, s.Holds x → s1.Holds x) ∧ s1.Holds el) xs s s2) :
    s2.boundary = s.boundary ∧ (s.Quadrants → s2.Quadrants) ∧
      (∀ x, s.Holds x → s2.Holds x) ∧ ∀ x ∈ xs, s2.Holds x := by
  induction st with
  | nil s => simp
  | cons hq _ ih =>
    obtain ⟨i1, i2, i3, i4⟩ := ih
    obtain ⟨j1, j2, j3, j4⟩ := hq
    refine ⟨i1.trans j1, fun h => i2 (j2 h), fun x hx => i3 x (j3 x hx), ?_⟩
    intro x hx
    rcases List.mem_cons.1 hx with hx | hx
    · rw [hx]; exact i3 _ j4
    · exact i4 x hx

theorem quadrants_subdivide_clear (t : Quadtree M) : (t.subdivide.clear).Quadrants := by
  simp [subdivide, clear, Quadrants, mk, boundary]

/-- `insert` keeps the boundary, the quadrant structure and every element the node keeps, and
the node keeps the inserted element afterwards when it collides with the boundary. -/
theorem insert_keeps (t : Quadtree M) (el : Element M) :
    (t.insert el.box el.data).boundary = t.boundary ∧
      (t.Quadrants → (t.insert el.box el.data).Quadrants) ∧
      (∀ x, t.Holds x → (t.insert el.box el.data).Holds x) ∧
      (collides t.boundary el.box = true → (t.insert el.box el.data).Holds el) := by
  refine insert_rel
    (fun t el t1 => t1.boundary = t.boundary ∧ (t.Quadrants → t1.Quadrants) ∧
      (∀ x, t.Holds x → t1.Holds x) ∧ (collides t.boundary el.box = true → t1.Holds el))
    (fun s el s1 => s1.boundary = s.boundary ∧ (s.Quadrants → s1.Quadrants) ∧
      (∀ x, s.Holds x → s1.Holds x) ∧ s1.Holds el)
    ?_ ?_ ?_ ?_ ?_ t el
  · intro t el h
    exact ⟨rfl, id, fun _ hx => hx, fun h2 => by simp [h] at h2⟩
  · intro t el _ _
    refine ⟨boundary_push_back t el, ?_, fun x hx => holds_push_back t el x hx,
      fun _ => holds_push_back_self t el⟩
    cases t <;> exact id
  · intro ins b c d els ne nw se sw el h1 h2 h3 h4
    exact keeps_place ins b c d els ne nw se sw el h1 h2 h3 h4
  · intro t el t1 _ _ _ hq
    exact ⟨hq.1, hq.2.1, hq.2.2.1, fun _ => hq.2.2.2⟩
  · intro b c d els el s t1 _ _ _ st hq
    obtain ⟨i1, i2, _, i4⟩ := keeps_steps st
    obtain ⟨j1, j2, j3, j4⟩ := hq
    refine ⟨?_, fun _ => j2 (i2 (quadrants_subdivide_clear _)), fun x hx => j3 x (i4 x hx),
      fun _ => j4⟩
    rw [j1, i1, boundary_subdivide_clear]

theorem quadrants_insertAll (t : Quadtree M) (ops : List (Element M)) (h : t.Quadrants) :
    (t.insertAll ops).Quadrants := by
  induction ops generalizing t with
  | nil => exact h
  | cons el ops ih => exact ih _ ((insert_keeps t el).2.1 h)

theorem holds_insertAll_of_holds (t : Quadtree M) (ops : List (Element M)) (x : Element M)
    (h : t.Holds x) : (t.insertAll ops).Holds x := by
  induction ops generalizing t with
  | nil => exact h
  | cons el ops ih => exact ih _ ((insert_keeps t el).2.2.1 x h)

theorem holds_insertAll (t : Quadtree M) (ops : List (Element M)) (x : Element M)
    (hx : x ∈ ops) (hc : collides t.boundary x.box = true) : (t.insertAll ops).Holds x := by
  induction ops generalizing t with
  | nil => simp at hx
  | cons el ops ih =>
    rw [insertAll_cons]
    rcases List.mem_cons.1 hx with hx | hx
    · rw [← hx]
      exact holds_insertAll_of_holds _ ops x ((insert_keeps t x).2.2.2 hc)
    · exact ih _ hx (by rw [boundary_insert]; exact hc)

/-! ### The snapshot iterator -/

theorem eq_end_ (t : Quadtree M) (it : Iterator M) : it.eq t.end_ = it.is_exhausted := by
  simp only [Iterator.eq, end_, Iterator.is_exhausted]
  cases it.elements with
  | none => simp
  | some p => cases h : decide (it.current_index ≥ p.2.length) <;> simp [h]

theorem eq_of_exhausted (it other : Iterator M) (h1 : it.is_exhausted = true)
    (h2 : other.is_exhausted = true) : it.eq other = true := by
  simp [Iterator.eq, h1, h2]

theorem incr_iterate (bits : Nat) (p : Option (Nat × List (Element M))) (i k : Nat)
    (hi : i < 2 ^ bits) :
    (Iterator.incr bits)^[k] ⟨p, i⟩ = ⟨p, (i + k) % 2 ^ bits⟩ := by
  induction k generalizing i with
  | zero => simp [Nat.mod_eq_of_lt hi]
  | succ k ih =>
    rw [Function.iterate_succ_apply]
    simp only [Iterator.incr]
    rw [ih _ (Nat.mod_lt _ (Nat.pos_pow_of_pos bits (by decide)))]
    congr 1
    rw [Nat.add_comm k 1, ← Nat.add_assoc, Nat.mod_add_mod]

theorem iterate_snapshot (bits : Nat) (t : Quadtree M) (addr : Nat) (v : List (Element M))
    (hv : v.length < 2 ^ bits) (j : Nat) (i : Nat) (hij : i + j = v.length)
    (all : List (Element M)) :
    iterate bits t (j + 1) ⟨some (addr, v), i⟩ all = some (all ++ v.drop i) := by
  induction j generalizing i all with
  | zero =>
    have hi : i = v.length := by omega
    simp [iterate, Iterator.ne, eq_end_, Iterator.is_exhausted, hi]
  | succ j ih =>
    have hi : i < v.length := by omega
    have hne : (Iterator.ne ⟨some (addr, v), i⟩ t.end_) = true := by
      simp [Iterator.ne, eq_end_, Iterator.is_exhausted, hi]
    have hd : Iterator.deref (⟨some (addr, v), i⟩ : Iterator M) = some (v.get ⟨i, hi⟩) := by
      simp [Iterator.deref, List.getElem?_eq_getElem hi]
    have hinc : Iterator.incr bits (⟨some (addr, v), i⟩ : Iterator M) =
        ⟨some (addr, v), i + 1⟩ := by
      simp only [Iterator.incr]
      congr 1
      exact Nat.mod_eq_of_lt (by omega)
    rw [iterate, if_pos hne, hd]
    simp only [hinc]
    rw [ih (i + 1) (by omega)]
    congr 1
    rw [List.append_assoc]
    congr 1
    rw [List.singleton_append]
    exact (List.drop_eq_getElem_cons hi).symm

/-! ### The body of `insert` -/

theorem place_insertFuel (k : Nat) (s : Quadtree M) (el : Element M) (hs : s.rank ≤ k + 1)
    (hd : s.divided = true) : place (insertFuel k) s el = place insert s el := by
  cases s with
  | leaf b c d els => simp [divided] at hd
  | node b c d els ne nw se sw =>
    obtain ⟨r1, r2, r3, r4⟩ := rank_node_le hs
    simp only [place, insertFuel_eq_insert _ _ _ k r1, insertFuel_eq_insert _ _ _ k r2,
      insertFuel_eq_insert _ _ _ k r3, insertFuel_eq_insert _ _ _ k r4]

theorem rank_insert_le (t : Quadtree M) (a : AxisAlignedBoundingBox) (m : M) :
    (t.insert a m).rank ≤ t.rank :=
  rank_insertFuel_le _ t a m

theorem foldl_place_insertFuel (k : Nat) (els : List (Element M)) (s : Quadtree M)
    (hs : s.rank ≤ k + 1) (hd : s.divided = true) :
    els.foldl (place (insertFuel k)) s = els.foldl (place insert) s ∧
      (els.foldl (place insert) s).rank ≤ k + 1 ∧
      (els.foldl (place insert) s).divided = true := by
  induction els generalizing s with
  | nil => exact ⟨rfl, hs, hd⟩
  | cons x xs ih =>
    simp only [List.foldl_cons]
    rw [place_insertFuel k s x hs hd]
    exact ih _ (le_trans (rank_place_le _ rank_insert_le s x) hs)
      (by rw [divided_place]; exact hd)

/-- The defining equation of `insert`, as the body of the C++ method reads: the recursive
calls are calls of `insert` itself. -/
theorem insert_unfold (t : Quadtree M) (aabb : AxisAlignedBoundingBox) (meta : M) :
    t.insert aabb meta =
      if !collides t.boundary aabb then t
      else if t.depth ≥ max_depth then t.push_back ⟨aabb, meta⟩
      else if !t.divided && decide (t.elements.length < t.capacity) then
        t.push_back ⟨aabb, meta⟩
      else
        place insert
          (if !t.divided then t.elements.foldl (place insert) (t.subdivide).clear else t)
          ⟨aabb, meta⟩ := by
  obtain ⟨k, hk⟩ : ∃ k, t.rank = k + 1 := ⟨t.rank - 1, by have := rank_pos t; omega⟩
  rw [insert, hk, insertFuel]
  split_ifs with h1 h2 h3 h4
  · rfl
  · rfl
  · rfl
  · cases t with
    | node b c d els ne nw se sw => simp [divided] at h4
    | leaf b c d els =>
      have hd : d < max_depth := by simpa [depth] using h2
      have hs0 : ((leaf b c d els).subdivide.clear).rank ≤ k + 1 := by
        rw [rank_subdivide_clear b c d els hd, hk]
      obtain ⟨e1, e2, e3⟩ := foldl_place_insertFuel k els _ hs0
        (by simp [subdivide, clear, divided])
      simp only [elements]
      rw [e1, place_insertFuel k _ _ e2 e3]
  · have hd : t.divided = true := by simpa using h4
    rw [place_insertFuel k t _ (le_of_eq hk) hd]

/-! ### `get_all_regions` -/

theorem collect_regions_eq (t : Quadtree M) (acc : List AxisAlignedBoundingBox) :
    t.collect_regions acc = acc ++ t.preorder := by
  induction t generalizing acc with
  | leaf b c d els => rfl
  | node b c d els ne nw se sw ih1 ih2 ih3 ih4 =>
    simp only [collect_regions, preorder, ih1, ih2, ih3, ih4, List.append_assoc,
      List.singleton_append, List.cons_append, List.nil_append]

theorem get_all_regions_eq (t : Quadtree M) : t.get_all_regions = t.preorder := by
  simp [get_all_regions, collect_regions_eq]

theorem preorder_head (t : Quadtree M) : t.preorder.head? = some t.boundary := by
  cases t <;> rfl

/-! ### The structure only grows -/

theorem grows_fields {t t1 : Quadtree M} (h : t.Grows t1) :
    t1.boundary = t.boundary ∧ t1.capacity = t.capacity ∧ t1.depth = t.depth := by
  cases t with
  | leaf b c d els => exact h
  | node b c d els ne nw se sw =>
    cases t1 with
    | leaf b1 c1 d1 els1 => exact absurd h id
    | node b1 c1 d1 els1 ne1 nw1 se1 sw1 => exact ⟨h.1, h.2.1, h.2.2.1⟩

theorem grows_refl (t : Quadtree M) : t.Grows t := by
  induction t with
  | leaf b c d els => exact ⟨rfl, rfl, rfl⟩
  | node b c d els ne nw se sw ih1 ih2 ih3 ih4 => exact ⟨rfl, rfl, rfl, ih1, ih2, ih3, ih4⟩

theorem grows_trans {t t1 t2 : Quadtree M} (h1 : t.Grows t1) (h2 : t1.Grows t2) :
    t.Grows t2 := by
  induction t generalizing t1 t2 with
  | leaf b c d els =>
    obtain ⟨a1, a2, a3⟩ := grows_fields h2
    exact ⟨a1.trans h1.1, a2.trans h1.2.1, a3.trans h1.2.2⟩
  | node b c d els ne nw se sw ih1 ih2 ih3 ih4 =>
    cases t1 with
    | leaf b1 c1 d1 els1 => exact absurd h1 id
    | node b1 c1 d1 els1 ne1 nw1 se1 sw1 =>
      cases t2 with
      | leaf b2 c2 d2 els2 => exact absurd h2 id
      | node b2 c2 d2 els2 ne2 nw2 se2 sw2 =>
        obtain ⟨x1, x2, x3, x4, x5, x6, x7⟩ := h1
        obtain ⟨y1, y2, y3, y4, y5, y6, y7⟩ := h2
        exact ⟨y1.trans x1, y2.trans x2, y3.trans x3, ih1 x4 y4, ih2 x5 y5, ih3 x6 y6,
          ih4 x7 y7⟩

theorem grows_push_back (t : Quadtree M) (el : Element M) : t.Grows (t.push_back el) := by
  cases t with
  | leaf b c d els => exact ⟨rfl, rfl, rfl⟩
  | node b c d els ne nw se sw =>
    exact ⟨rfl, rfl, rfl, grows_refl _, grows_refl _, grows_refl _, grows_refl _⟩

theorem grows_child (ins : Quadtree M → AxisAlignedBoundingBox → M → Quadtree M)
    (c : Quadtree M) (el : Element M)
    (h : collides c.boundary el.box = true → c.Grows (ins c el.box el.data)) :
    c.Grows (if collides c.boundary el.box = true then ins c el.box el.data else c) := by
  split_ifs with hc
  · exact h hc
  · exact grows_refl c

/-- `insert` keeps every node where it is, with its boundary, capacity and depth, and keeps
divided nodes divided. -/
theorem grows_insert (t : Quadtree M) (el : Element M) : t.Grows (t.insert el.box el.data) := by
  refine insert_rel (fun t _ t1 => t.Grows t1) (fun s _ s1 => s.Grows s1) ?_ ?_ ?_ ?_ ?_ t el
  · intro t el _
    exact grows_refl t
  · intro t el _ _
    exact grows_push_back t el
  · intro ins b c d els ne nw se sw el h1 h2 h3 h4
    exact ⟨rfl, rfl, rfl, grows_child ins ne el h1, grows_child ins nw el h2,
      grows_child ins se el h3, grows_child ins sw el h4⟩
  · intro t el t1 _ _ _ hq
    exact hq
  · intro b c d els el s t1 _ _ _ st hq
    have hs : s.boundary = b ∧ s.capacity = c ∧ s.depth = d := by
      refine steps_invariant (fun s => s.boundary = b ∧ s.capacity = c ∧ s.depth = d) ?_ st
        ⟨rfl, rfl, rfl⟩
      intro s x s1 hg hI
      obtain ⟨g1, g2, g3⟩ := grows_fields hg
      exact ⟨g1.trans hI.1, g2.trans hI.2.1, g3.trans hI.2.2⟩
    obtain ⟨g1, g2, g3⟩ := grows_fields hq
    exact ⟨g1.trans hs.1, g2.trans hs.2.1, g3.trans hs.2.2⟩

theorem grows_insertAll (t : Quadtree M) (ops : List (Element M)) :
    t.Grows (t.insertAll ops) := by
  induction ops generalizing t with
  | nil => exact grows_refl t
  | cons el ops ih => exact grows_trans (grows_insert t el) (ih _)

theorem preorder_sublist_of_grows {t t1 : Quadtree M} (h : t.Grows t1) :
    t.preorder.Sublist t1.preorder := by
  induction t generalizing t1 with
  | leaf b c d els =>
    have hh := preorder_head t1
    rw [h.1] at hh
    simp only [preorder, List.singleton_sublist]
    exact List.mem_of_mem_head? hh
  | node b c d els ne nw se sw ih1 ih2 ih3 ih4 =>
    cases t1 with
    | leaf b1 c1 d1 els1 => exact absurd h id
    | node b1 c1 d1 els1 ne1 nw1 se1 sw1 =>
      obtain ⟨x1, _, _, x4, x5, x6, x7⟩ := h
      simp only [preorder, x1]
      exact List.Sublist.cons₂ _ ((ih1 x4).append ((ih2 x5).append ((ih3 x6).append (ih4 x7))))

/-! ### The invariant of the trees built by `insert` -/

theorem steps_invariant_of {Q : Quadtree M → Element M → Quadtree M → Prop}
    (P : Element M → Prop) (I : Quadtree M → Prop)
    (h : ∀ s x s1, P x → Q s x s1 → I s → I s1)
    {xs : List (Element M)} {s s2 : Quadtree M} (st : Steps Q xs s s2)
    (hP : ∀ x ∈ xs, P x) (hs : I s) : I s2 := by
  induction st with
  | nil s => exact hs
  | cons hq _ ih =>
    exact ih (fun x hx => hP x (List.mem_cons_of_mem _ hx))
      (h _ _ _ (hP _ (List.mem_cons_self _ _)) hq hs)

theorem inv_child (ins : Quadtree M → AxisAlignedBoundingBox → M → Quadtree M)
    (c : Quadtree M) (el : Element M)
    (h : collides c.boundary el.box = true →
      ((ins c el.box el.data).boundary = c.boundary ∧
        (ins c el.box el.data).capacity = c.capacity ∧
        (ins c el.box el.data).depth = c.depth) ∧
      (c.Inv → (ins c el.box el.data).Inv)) :
    ((if collides c.boundary el.box = true then ins c el.box el.data else c).boundary =
        c.boundary ∧
      (if collides c.boundary el.box = true then ins c el.box el.data else c).capacity =
        c.capacity ∧
      (if collides c.boundary el.box = true then ins c el.box el.data else c).depth =
        c.depth) ∧
      (c.Inv → (if collides c.boundary el.box = true then ins c el.box el.data else c).Inv) := by
  split_ifs with hc
  · exact h hc
  · exact ⟨⟨rfl, rfl, rfl⟩, id⟩

theorem inv_place (ins : Quadtree M → AxisAlignedBoundingBox → M → Quadtree M)
    (b : AxisAlignedBoundingBox) (c d : Nat) (els : List (Element M))
    (ne nw se sw : Quadtree M) (el : Element M)
    (h1 : collides ne.boundary el.box = true →
      ((ins ne el.box el.data).boundary = ne.boundary ∧
        (ins ne el.box el.data).capacity = ne.capacity ∧
        (ins ne el.box el.data).depth = ne.depth) ∧
      (ne.Inv → (ins ne el.box el.data).Inv))
    (h2 : collides nw.boundary el.box = true →
      ((ins nw el.box el.data).boundary = nw.boundary ∧
        (ins nw el.box el.data).capacity = nw.capacity ∧
        (ins nw el.box el.data).depth = nw.depth) ∧
      (nw.Inv → (ins nw el.box el.data).Inv))
    (h3 : collides se.boundary el.box = true →
      ((ins se el.box el.data).boundary = se.boundary ∧
        (ins se el.box el.data).capacity = se.capacity ∧
        (ins se el.box el.data).depth = se.depth) ∧
      (se.Inv → (ins se el.box el.data).Inv))
    (h4 : collides sw.boundary el.box = true →
      ((ins sw el.box el.data).boundary = sw.boundary ∧
        (ins sw el.box el.data).capacity = sw.capacity ∧
        (ins sw el.box el.data).depth = sw.depth) ∧
      (sw.Inv → (ins sw el.box el.data).Inv))
    (hI : (node b c d els ne nw se sw).Inv) (hc : collides b el.box = true) :
    (place ins (node b c d els ne nw se sw) el).Inv := by
  obtain ⟨⟨a1, a2, a3⟩, a4⟩ := inv_child ins ne el h1
  obtain ⟨⟨b1, b2, b3⟩, b4⟩ := inv_child ins nw el h2
  obtain ⟨⟨c1, c2, c3⟩, c4⟩ := inv_child ins se el h3
  obtain ⟨⟨d1, d2, d3⟩, d4⟩ := inv_child ins sw el h4
  simp only [place]
  generalize (if collides ne.boundary el.box = true then ins ne el.box el.data else ne) = ne1
    at a1 a2 a3 a4
  generalize (if collides nw.boundary el.box = true then ins nw el.box el.data else nw) = nw1
    at b1 b2 b3 b4
  generalize (if collides se.boundary el.box = true then ins se el.box el.data else se) = se1
    at c1 c2 c3 c4
  generalize (if collides sw.boundary el.box = true then ins sw el.box el.data else sw) = sw1
    at d1 d2 d3 d4
  obtain ⟨i1, ⟨i2, i3, i4, i5⟩, ⟨i6, i7, i8, i9⟩, i10, j1, j2, j3, j4⟩ := hI
  refine ⟨i1, ⟨a3.trans i2, b3.trans i3, c3.trans i4, d3.trans i5⟩,
    ⟨a2.trans i6, b2.trans i7, c2.trans i8, d2.trans i9⟩, ?_, a4 j1, b4 j2, c4 j3, d4 j4⟩
  rw [a1, b1, c1, d1]
  intro e he
  by_cases hp : (collides ne.boundary el.box || collides nw.boundary el.box ||
      collides se.boundary el.box || collides sw.boundary el.box) = true
  · rw [if_pos hp] at he
    exact i10 e he
  · rw [if_neg hp] at he
    rcases List.mem_append.1 he with he | he
    · exact i10 e he
    · rw [List.mem_singleton] at he
      rw [he]
      simp only [Bool.or_eq_true, not_or, Bool.not_eq_true] at hp
      exact ⟨hc, hp.1.1.1, hp.1.1.2, hp.1.2, hp.2⟩

theorem inv_subdivide_clear (b : AxisAlignedBoundingBox) (c d : Nat) (els : List (Element M))
    (hd : d < max_depth) : ((leaf b c d els).subdivide.clear).Inv := by
  simp [subdivide, clear, Inv, mk, boundary, capacity, depth, hd]

/-- `insert` keeps the boundary, capacity and depth of the node and the invariant `Inv`. -/
theorem inv_insert (t : Quadtree M) (el : Element M) :
    ((t.insert el.box el.data).boundary = t.boundary ∧
      (t.insert el.box el.data).capacity = t.capacity ∧
      (t.insert el.box el.data).depth = t.depth) ∧
    (t.Inv → (t.insert el.box el.data).Inv) := by
  refine insert_rel
    (fun t _ t1 => (t1.boundary = t.boundary ∧ t1.capacity = t.capacity ∧ t1.depth = t.depth) ∧
      (t.Inv → t1.Inv))
    (fun s el s1 => (s1.boundary = s.boundary ∧ s1.capacity = s.capacity ∧
      s1.depth = s.depth) ∧ (s.Inv → collides s.boundary el.box = true → s1.Inv))
    ?_ ?_ ?_ ?_ ?_ t el
  · intro t el _
    exact ⟨⟨rfl, rfl, rfl⟩, id⟩
  · intro t el hc hcase
    refine ⟨?_, ?_⟩
    · cases t <;> exact ⟨rfl, rfl, rfl⟩
    · intro hI
      cases t with
      | leaf b c d els =>
        refine ⟨fun hd => ?_, fun e he => ?_⟩
        · rcases hcase with h | ⟨_, h⟩
          · simp only [depth] at h; omega
          · simp only [elements, capacity] at h
            simp only [List.length_append, List.length_singleton]; omega
        · rcases List.mem_append.1 he with he | he
          · exact hI.2 e he
          · rw [List.mem_singleton] at he
            rw [he]; exact hc
      | node b c d els ne nw se sw =>
        rcases hcase with h | ⟨h, _⟩
        · have := hI.1
          simp only [depth] at h; omega
        · simp [divided] at h
  · intro ins b c d els ne nw se sw el h1 h2 h3 h4
    exact ⟨⟨rfl, rfl, rfl⟩, fun hI hc => inv_place ins b c d els ne nw se sw el h1 h2 h3 h4 hI hc⟩
  · intro t el t1 _ hc _ hq
    exact ⟨hq.1, fun hI => hq.2 hI hc⟩
  · intro b c d els el s t1 hc hd _ st hq
    have hf : s.boundary = b ∧ s.capacity = c ∧ s.depth = d := by
      refine steps_invariant (fun s => s.boundary = b ∧ s.capacity = c ∧ s.depth = d) ?_ st
        ⟨rfl, rfl, rfl⟩
      intro s x s1 hq1 hI
      obtain ⟨⟨g1, g2, g3⟩, _⟩ := hq1
      exact ⟨g1.trans hI.1, g2.trans hI.2.1, g3.trans hI.2.2⟩
    obtain ⟨⟨g1, g2, g3⟩, g4⟩ := hq
    refine ⟨⟨g1.trans hf.1, g2.trans hf.2.1, g3.trans hf.2.2⟩, fun hI => g4 ?_ ?_⟩
    · refine (steps_invariant_of (fun x => collides b x.box = true)
        (fun s => s.boundary = b ∧ s.Inv) ?_ st hI.2
        ⟨rfl, inv_subdivide_clear b c d els hd⟩).2
      intro s x s1 hx hq1 hIs
      refine ⟨hq1.1.1.trans hIs.1, hq1.2 hIs.2 ?_⟩
      rw [hIs.1]; exact hx
    · rw [hf.1]; exact hc

theorem inv_mk (B : AxisAlignedBoundingBox) (c d : Nat) : (mk B c d : Quadtree M).Inv := by
  simp [mk, Inv]

theorem inv_insertAll (t : Quadtree M) (ops : List (Element M)) (h : t.Inv) :
    (t.insertAll ops).Inv := by
  induction ops generalizing t with
  | nil => exact h
  | cons el ops ih => exact ih _ ((inv_insert t el).2 h)

theorem depth_insertAll (t : Quadtree M) (ops : List (Element M)) :
    (t.insertAll ops).depth = t.depth :=
  (grows_fields (grows_insertAll t ops)).2.2

theorem capacity_insertAll (t : Quadtree M) (ops : List (Element M)) :
    (t.insertAll ops).capacity = t.capacity :=
  (grows_fields (grows_insertAll t ops)).2.1

theorem mem_nodes_self (t : Quadtree M) : t ∈ t.nodes := by
  cases t <;> simp [nodes]

theorem mem_nodes_node {b : AxisAlignedBoundingBox} {c d : Nat} {els : List (Element M)}
    {ne nw se sw N : Quadtree M} (h : N ∈ (node b c d els ne nw se sw).nodes) :
    N = node b c d els ne nw se sw ∨ N ∈ ne.nodes ∨ N ∈ nw.nodes ∨ N ∈ se.nodes ∨
      N ∈ sw.nodes := by
  simpa [nodes] using h

/-- The invariant holds of every node of a tree that has it. -/
theorem inv_of_mem_nodes {t N : Quadtree M} (h : t.Inv) (hN : N ∈ t.nodes) : N.Inv := by
  induction t with
  | leaf b c d els =>
    simp only [nodes, List.mem_singleton] at hN
    rw [hN]; exact h
  | node b c d els ne nw se sw ih1 ih2 ih3 ih4 =>
    rcases mem_nodes_node hN with hN | hN | hN | hN | hN
    · rw [hN]; exact h
    · exact ih1 h.2.2.2.2.1 hN
    · exact ih2 h.2.2.2.2.2.1 hN
    · exact ih3 h.2.2.2.2.2.2.1 hN
    · exact ih4 h.2.2.2.2.2.2.2 hN

theorem depth_le_of_mem_nodes {t N : Quadtree M} (h : t.Inv) (hd : t.depth ≤ max_depth)
    (hN : N ∈ t.nodes) : N.depth ≤ max_depth := by
  induction t with
  | leaf b c d els =>
    simp only [nodes, List.mem_singleton] at hN
    rw [hN]; exact hd
  | node b c d els ne nw se sw ih1 ih2 ih3 ih4 =>
    obtain ⟨i1, ⟨i2, i3, i4, i5⟩, _, _, j1, j2, j3, j4⟩ := h
    rcases mem_nodes_node hN with hN | hN | hN | hN | hN
    · rw [hN]; exact hd
    · exact ih1 j1 (by rw [i2]; omega) hN
    · exact ih2 j2 (by rw [i3]; omega) hN
    · exact ih3 j3 (by rw [i4]; omega) hN
    · exact ih4 j4 (by rw [i5]; omega) hN

theorem rank_le_of_inv {t : Quadtree M} (h : t.Inv) : t.rank ≤ max_depth - t.depth + 1 := by
  induction t with
  | leaf b c d els => exact le_refl _
  | node b c d els ne nw se sw ih1 ih2 ih3 ih4 =>
    obtain ⟨i1, ⟨i2, i3, i4, i5⟩, _, _, j1, j2, j3, j4⟩ := h
    have r1 := ih1 j1
    have r2 := ih2 j2
    have r3 := ih3 j3
    have r4 := ih4 j4
    rw [i2] at r1
    rw [i3] at r2
    rw [i4] at r3
    rw [i5] at r4
    simp only [rank, depth]
    omega

theorem height_le_of_inv {t : Quadtree M} (h : t.Inv) : t.height ≤ max_depth - t.depth := by
  induction t with
  | leaf b c d els => exact Nat.zero_le _
  | node b c d els ne nw se sw ih1 ih2 ih3 ih4 =>
    obtain ⟨i1, ⟨i2, i3, i4, i5⟩, _, _, j1, j2, j3, j4⟩ := h
    have r1 := ih1 j1
    have r2 := ih2 j2
    have r3 := ih3 j3
    have r4 := ih4 j4
    rw [i2] at r1
    rw [i3] at r2
    rw [i4] at r3
    rw [i5] at r4
    simp only [height, depth]
    omega

/-! ### Geometry of `subdivide` -/

/-- A rectangle that collides with a quadrant of a boundary of non-negative extent collides
with the boundary. -/
theorem collides_of_collides_quadrant (b e : AxisAlignedBoundingBox) (hw : 0 ≤ b.w)
    (hh : 0 ≤ b.h)
    (S : collides ⟨b.x + b.w / 2, b.y, b.w / 2, b.h / 2⟩ e = true ∨
      collides ⟨b.x, b.y, b.w / 2, b.h / 2⟩ e = true ∨
      collides ⟨b.x + b.w / 2, b.y + b.h / 2, b.w / 2, b.h / 2⟩ e = true ∨
      collides ⟨b.x, b.y + b.h / 2, b.w / 2, b.h / 2⟩ e = true) :
    collides b e = true := by
  simp only [collides_iff] at S ⊢
  rcases S with ⟨s1, s2, s3, s4⟩ | ⟨s1, s2, s3, s4⟩ | ⟨s1, s2, s3, s4⟩ | ⟨s1, s2, s3, s4⟩ <;>
    exact ⟨by linarith, by linarith, by linarith, by linarith⟩

/-- A rectangle of positive extent that collides with a boundary collides with one of its
quadrants. -/
theorem collides_quadrant_of_collides (b r : AxisAlignedBoundingBox) (hrw : 0 < r.w)
    (hrh : 0 < r.h) (h : collides b r = true) :
    collides ⟨b.x + b.w / 2, b.y, b.w / 2, b.h / 2⟩ r = true ∨
      collides ⟨b.x, b.y, b.w / 2, b.h / 2⟩ r = true ∨
      collides ⟨b.x + b.w / 2, b.y + b.h / 2, b.w / 2, b.h / 2⟩ r = true ∨
      collides ⟨b.x, b.y + b.h / 2, b.w / 2, b.h / 2⟩ r = true := by
  simp only [collides_iff] at h ⊢
  obtain ⟨h1, h2, h3, h4⟩ := h
  by_cases hx : r.x < b.x + b.w / 2 <;> by_cases hy : r.y < b.y + b.h / 2
  · exact Or.inr (Or.inl ⟨h1, hx, h3, hy⟩)
  · push_neg at hy
    exact Or.inr (Or.inr (Or.inr ⟨h1, hx, by linarith, by linarith⟩))
  · push_neg at hx
    exact Or.inl ⟨by linarith, by linarith, h3, hy⟩
  · push_neg at hx hy
    exact Or.inr (Or.inr (Or.inl ⟨by linarith, by linarith, by linarith, by linarith⟩))

/-! ### Every leaf that an element reaches holds it -/

theorem holds_child_or (b : AxisAlignedBoundingBox) (els : List (Element M)) (e : Element M)
    (ch : Quadtree M) (K : Prop) (hH : (e ∈ els ∨ K) ∨ collides b e.box = false)
    (hloc : e ∈ els → collides ch.boundary e.box = false)
    (hk : K → collides ch.boundary e.box = true → ch.Holds e)
    (hup : collides ch.boundary e.box = true → collides b e.box = true) :
    ch.Holds e ∨ collides ch.boundary e.box = false := by
  by_cases hcc : collides ch.boundary e.box = true
  · rcases hH with (he | hK) | hH
    · rw [hloc he] at hcc
      exact absurd hcc (by decide)
    · exact Or.inl (hk hK hcc)
    · rw [hup hcc] at hH
      exact absurd hH (by decide)
  · right
    simpa using hcc

/-- In a tree with the quadrant structure and the invariant, over a boundary of non-negative
extent, an element that the tree keeps is in the buffer of every leaf whose boundary it
collides with. -/
theorem mem_leaf_of_holds (t : Quadtree M) (hq : t.Quadrants) (hI : t.Inv)
    (hw : 0 ≤ t.boundary.w) (hh : 0 ≤ t.boundary.h) (e : Element M)
    (hH : t.Holds e ∨ collides t.boundary e.box = false) (L : Quadtree M) (hL : L ∈ t.nodes)
    (hd : L.divided = false) (hc : collides L.boundary e.box = true) : e ∈ L.elements := by
  induction t with
  | leaf b c d els =>
    simp only [nodes, List.mem_singleton] at hL
    rw [hL] at hc ⊢
    rcases hH with hH | hH
    · exact hH
    · simp only [boundary] at hc hH
      rw [hH] at hc
      exact absurd hc (by decide)
  | node b c d els ne nw se sw ih1 ih2 ih3 ih4 =>
    obtain ⟨q1, q2, q3, q4, w1, w2, w3, w4⟩ := hq
    obtain ⟨_, _, _, i10, j1, j2, j3, j4⟩ := hI
    simp only [boundary] at hw hh
    have hw2 : 0 ≤ b.w / 2 := by linarith
    have hh2 : 0 ≤ b.h / 2 := by linarith
    have hH2 : (e ∈ els ∨
        ((collides ne.boundary e.box = true ∨ collides nw.boundary e.box = true ∨
            collides se.boundary e.box = true ∨ collides sw.boundary e.box = true) ∧
          (collides ne.boundary e.box = true → ne.Holds e) ∧
          (collides nw.boundary e.box = true → nw.Holds e) ∧
          (collides se.boundary e.box = true → se.Holds e) ∧
          (collides sw.boundary e.box = true → sw.Holds e))) ∨
        collides b e.box = false := hH
    rcases mem_nodes_node hL with hL | hL | hL | hL | hL
    · rw [hL] at hd
      simp [divided] at hd
    · refine ih1 w1 j1 (by rw [q1]; exact hw2) (by rw [q1]; exact hh2) ?_ hL
      refine holds_child_or b els e ne _ hH2 (fun he => (i10 e he).2.1) (fun hK => hK.2.1) ?_
      intro hcc
      exact collides_of_collides_quadrant b e.box hw hh (Or.inl (q1 ▸ hcc))
    · refine ih2 w2 j2 (by rw [q2]; exact hw2) (by rw [q2]; exact hh2) ?_ hL
      refine holds_child_or b els e nw _ hH2 (fun he => (i10 e he).2.2.1)
        (fun hK => hK.2.2.1) ?_
      intro hcc
      exact collides_of_collides_quadrant b e.box hw hh (Or.inr (Or.inl (q2 ▸ hcc)))
    · refine ih3 w3 j3 (by rw [q3]; exact hw2) (by rw [q3]; exact hh2) ?_ hL
      refine holds_child_or b els e se _ hH2 (fun he => (i10 e he).2.2.2.1)
        (fun hK => hK.2.2.2.1) ?_
      intro hcc
      exact collides_of_collides_quadrant b e.box hw hh (Or.inr (Or.inr (Or.inl (q3 ▸ hcc))))
    · refine ih4 w4 j4 (by rw [q4]; exact hw2) (by rw [q4]; exact hh2) ?_ hL
      refine holds_child_or b els e sw _ hH2 (fun he => (i10 e he).2.2.2.2)
        (fun hK => hK.2.2.2.2) ?_
      intro hcc
      exact collides_of_collides_quadrant b e.box hw hh (Or.inr (Or.inr (Or.inr (q4 ▸ hcc))))

/-! ### When a leaf appends and when it subdivides -/

theorem divided_foldl_place (ins : Quadtree M → AxisAlignedBoundingBox → M → Quadtree M)
    (els : List (Element M)) (s : Quadtree M) :
    (els.foldl (place ins) s).divided = s.divided := by
  induction els generalizing s with
  | nil => rfl
  | cons x xs ih => rw [List.foldl_cons, ih, divided_place]

theorem insert_at_max_depth (t : Quadtree M) (aabb : AxisAlignedBoundingBox) (meta : M)
    (hd : max_depth ≤ t.depth) (hc : collides t.boundary aabb = true) :
    t.insert aabb meta = t.push_back ⟨aabb, meta⟩ := by
  rw [insert_unfold]
  simp [hc, hd]

theorem insert_leaf_append (b : AxisAlignedBoundingBox) (c d : Nat) (els : List (Element M))
    (aabb : AxisAlignedBoundingBox) (meta : M) (hc : collides b aabb = true)
    (hlen : els.length < c) :
    (leaf b c d els).insert aabb meta = leaf b c d (els ++ [⟨aabb, meta⟩]) := by
  rw [insert_unfold]
  simp only [boundary, hc, depth, divided, elements, capacity, hlen, push_back]
  simp

theorem insert_leaf_subdivides (b : AxisAlignedBoundingBox) (c d : Nat)
    (els : List (Element M)) (aabb : AxisAlignedBoundingBox) (meta : M)
    (hd : d < max_depth) (hc : collides b aabb = true) (hlen : c ≤ els.length) :
    ((leaf b c d els).insert aabb meta).divided = true := by
  have h1 : ¬ max_depth ≤ d := by omega
  have h2 : ¬ els.length < c := by omega
  have e : (leaf b c d els).insert aabb meta =
      place insert (els.foldl (place insert) (leaf b c d els).subdivide.clear)
        ⟨aabb, meta⟩ := by
    rw [insert_unfold]
    simp [boundary, hc, depth, divided, elements, capacity, h1, h2]
  rw [e, divided_place, divided_foldl_place]
  simp [subdivide, clear, divided]

theorem divided_of_grows {t t1 : Quadtree M} (h : t.Grows t1) (hd : t.divided = true) :
    t1.divided = true := by
  cases t with
  | leaf b c d els => simp [divided] at hd
  | node b c d els ne nw se sw =>
    cases t1 with
    | leaf b1 c1 d1 els1 => exact absurd h id
    | node b1 c1 d1 els1 ne1 nw1 se1 sw1 => rfl

/-- While the accepted inserts do not exceed the capacity, the root stays a single leaf that
holds them in the order of insertion. -/
theorem insertAll_leaf (B : AxisAlignedBoundingBox) (c d : Nat) (ops els : List (Element M))
    (h : els.length + (ops.filter (fun e => collides B e.box)).length ≤ c) :
    (leaf B c d els).insertAll ops =
      leaf B c d (els ++ ops.filter (fun e => collides B e.box)) := by
  induction ops generalizing els with
  | nil => simp [insertAll_nil]
  | cons x xs ih =>
    rw [insertAll_cons]
    by_cases hx : collides B x.box = true
    · simp only [List.filter_cons, hx, if_true, List.length_cons] at h ⊢
      rw [insert_leaf_append B c d els x.box x.data hx (by omega)]
      rw [ih (els ++ [x]) (by simp only [List.length_append, List.length_singleton]; omega)]
      simp
    · have hx2 : collides B x.box = false := by simpa using hx
      simp only [List.filter_cons, hx2, Bool.false_eq_true, if_false] at h ⊢
      rw [insert_of_not_collides _ _ _ (by simpa [boundary] using hx2)]
      exact ih els h

/-- The accepted insert that finds the leaf full subdivides it, and it stays divided. -/
theorem insertAll_leaf_divided (B : AxisAlignedBoundingBox) (c d : Nat)
    (ops els : List (Element M)) (hd : d < max_depth) (hels : els.length ≤ c)
    (h : c + 1 ≤ els.length + (ops.filter (fun e => collides B e.box)).length) :
    ((leaf B c d els).insertAll ops).divided = true := by
  induction ops generalizing els with
  | nil => simp at h; omega
  | cons x xs ih =>
    rw [insertAll_cons]
    by_cases hx : collides B x.box = true
    · simp only [List.filter_cons, hx, if_true, List.length_cons] at h
      by_cases hlen : els.length < c
      · rw [insert_leaf_append B c d els x.box x.data hx hlen]
        exact ih (els ++ [x])
          (by simp only [List.length_append, List.length_singleton]; omega)
          (by simp only [List.length_append, List.length_singleton]; omega)
      · exact divided_of_grows (grows_insertAll _ xs)
          (insert_leaf_subdivides B c d els x.box x.data hd hx (by omega))
    · have hx2 : collides B x.box = false := by simpa using hx
      simp only [List.filter_cons, hx2, Bool.false_eq_true, if_false] at h
      rw [insert_of_not_collides _ _ _ (by simpa [boundary] using hx2)]
      exact ih els hels h

theorem preorder_length_of_divided (t : Quadtree M) (h : t.divided = true) :
    5 ≤ t.preorder.length := by
  cases t with
  | leaf b c d els => simp [divided] at h
  | node b c d els ne nw se sw =>
    have l : ∀ s : Quadtree M, 1 ≤ s.preorder.length := by
      intro s
      cases s <;> simp [preorder]
    have l1 := l ne
    have l2 := l nw
    have l3 := l se
    have l4 := l sw
    simp only [preorder, List.length_cons, List.length_append]
    omega

theorem capacity_of_mem_nodes {t N : Quadtree M} (h : t.Inv) (hN : N ∈ t.nodes) :
    N.capacity = t.capacity := by
  induction t with
  | leaf b c d els =>
    simp only [nodes, List.mem_singleton] at hN
    rw [hN]
  | node b c d els ne nw se sw ih1 ih2 ih3 ih4 =>
    obtain ⟨_, _, ⟨i6, i7, i8, i9⟩, _, j1, j2, j3, j4⟩ := h
    rcases mem_nodes_node hN with hN | hN | hN | hN | hN
    · rw [hN]
    · exact (ih1 j1 hN).trans i6
    · exact (ih2 j2 hN).trans i7
    · exact (ih3 j3 hN).trans i8
    · exact (ih4 j4 hN).trans i9

theorem children_of_grows {t t1 : Quadtree M} (h : t.Grows t1) (hd : t.divided = true) :
    t1.children.map boundary = t.children.map boundary ∧
      t1.children.map capacity = t.children.map capacity ∧
      t1.children.map depth = t.children.map depth := by
  cases t with
  | leaf b c d els => simp [divided] at hd
  | node b c d els ne nw se sw =>
    cases t1 with
    | leaf b1 c1 d1 els1 => exact absurd h id
    | node b1 c1 d1 els1 ne1 nw1 se1 sw1 =>
      obtain ⟨_, _, _, g1, g2, g3, g4⟩ := h
      obtain ⟨a1, a2, a3⟩ := grows_fields g1
      obtain ⟨b1, b2, b3⟩ := grows_fields g2
      obtain ⟨c1, c2, c3⟩ := grows_fields g3
      obtain ⟨d1, d2, d3⟩ := grows_fields g4
      simp [children, a1, a2, a3, b1, b2, b3, c1, c2, c3, d1, d2, d3]

theorem node_facts_of_inv {N : Quadtree M} (h : N.Inv) :
    (∀ ch ∈ N.children, ch.depth = N.depth + 1 ∧ ch.capacity = N.capacity) ∧
      (N.divided = true → N.depth < max_depth) ∧
      (N.divided = false → N.depth < max_depth → N.elements.length ≤ N.capacity) ∧
      (∀ e ∈ N.elements, collides N.boundary e.box = true ∧
        ∀ ch ∈ N.children, collides ch.boundary e.box = false) := by
  cases N with
  | leaf b c d els =>
    refine ⟨by simp [children], by simp [divided], fun _ hd => h.1 hd, fun e he => ?_⟩
    exact ⟨h.2 e he, by simp [children]⟩
  | node b c d els ne nw se sw =>
    obtain ⟨i1, ⟨i2, i3, i4, i5⟩, ⟨i6, i7, i8, i9⟩, i10, _⟩ := h
    refine ⟨?_, fun _ => i1, by simp [divided], fun e he => ?_⟩
    · intro ch hch
      simp only [children, List.mem_cons, List.mem_singleton, List.not_mem_nil, or_false]
        at hch
      rcases hch with h | h | h | h <;> rw [h]
      · exact ⟨i2, i6⟩
      · exact ⟨i3, i7⟩
      · exact ⟨i4, i8⟩
      · exact ⟨i5, i9⟩
    · obtain ⟨k0, k1, k2, k3, k4⟩ := i10 e he
      exact ⟨k0, by simp [children, k1, k2, k3, k4]⟩

/-! ### `query_region` against the inserted entries -/

/-- The entries of `query_region` over a tree built by inserts: the inserted entries that
collide with the root boundary and with a query rectangle of positive extent that collides with
the root boundary. -/
theorem mem_query_region_insertAll [DecidableEq M] (B : AxisAlignedBoundingBox) (c d : Nat)
    (ops : List (Element M)) (R : AxisAlignedBoundingBox) (hRw : 0 < R.w) (hRh : 0 < R.h)
    (e : Element M) :
    e ∈ ((mk B c d).insertAll ops).query_region R ↔
      collides B R = true ∧ e ∈ ops ∧ collides B e.box = true ∧ collides e.box R = true := by
  have hb : ((mk B c d : Quadtree M).insertAll ops).boundary = B := boundary_insertAll _ ops
  constructor
  · intro h
    have h1 := mem_stored_of_mem_query_region _ R e h
    rw [mem_stored_insertAll] at h1
    have h2 : collides B R = true := by
      by_contra hn
      have hn2 : collides ((mk B c d : Quadtree M).insertAll ops).boundary R = false := by
        rw [hb]; simpa using hn
      rw [query_region_of_not_collides _ R hn2] at h
      simp at h
    rcases h1 with h1 | h1
    · simp [mk, stored] at h1
    · exact ⟨h2, h1.1, h1.2, collides_of_mem_query_region _ R e h⟩
  · rintro ⟨h1, h2, h3, h4⟩
    refine mem_query_region_of_holds _ (quadrants_insertAll (mk B c d) ops trivial) R hRw hRh e
      (holds_insertAll _ ops e h2 h3) ?_ ?_ h4
    · rw [hb]; exact h3
    · rw [hb]; exact h1

theorem exists_child_subdivide_iff (t : Quadtree M) (r : AxisAlignedBoundingBox) :
    (∃ ch ∈ (t.subdivide).children, collides ch.boundary r = true) ↔
      (collides ⟨t.boundary.x + t.boundary.w / 2, t.boundary.y, t.boundary.w / 2,
          t.boundary.h / 2⟩ r = true ∨
        collides ⟨t.boundary.x, t.boundary.y, t.boundary.w / 2, t.boundary.h / 2⟩ r = true ∨
        collides ⟨t.boundary.x + t.boundary.w / 2, t.boundary.y + t.boundary.h / 2,
          t.boundary.w / 2, t.boundary.h / 2⟩ r = true ∨
        collides ⟨t.boundary.x, t.boundary.y + t.boundary.h / 2, t.boundary.w / 2,
          t.boundary.h / 2⟩ r = true) := by
  simp only [subdivide, children, mk, List.mem_cons, List.mem_singleton, List.not_mem_nil,
    or_false, exists_eq_or_imp, exists_eq_left, boundary]

theorem pairwise_quadrants (b : AxisAlignedBoundingBox) :
    List.Pairwise (fun a c : AxisAlignedBoundingBox => collides a c = false ∧ collides c a = false)
      [⟨b.x + b.w / 2, b.y, b.w / 2, b.h / 2⟩, ⟨b.x, b.y, b.w / 2, b.h / 2⟩,
        ⟨b.x + b.w / 2, b.y + b.h / 2, b.w / 2, b.h / 2⟩,
        ⟨b.x, b.y + b.h / 2, b.w / 2, b.h / 2⟩] := by
  simp only [List.pairwise_cons, List.mem_cons, List.mem_singleton, List.not_mem_nil,
    forall_eq_or_imp, forall_eq, List.Pairwise.nil, and_true, IsEmpty.forall_iff,
    implies_true, ← Bool.not_eq_true, collides_iff, or_false]
  refine ⟨⟨?_, ?_, ?_⟩, ⟨?_, ?_⟩, ?_⟩ <;> constructor <;> rintro ⟨h1, h2, h3, h4⟩ <;>
    linarith

/-! ### The rounded definitions with no rounding are the exact ones -/

theorem collides_rd_id (a b : AxisAlignedBoundingBox) : collides_rd id a b = collides a b := rfl

theorem subdivide_rd_id (t : Quadtree M) : t.subdivide_rd id = t.subdivide := rfl

theorem place_rd_id (ins : Quadtree M → AxisAlignedBoundingBox → M → Quadtree M)
    (s : Quadtree M) (el : Element M) : place_rd id ins s el = place ins s el := by
  cases s <;> rfl

theorem insertFuel_rd_id (n : Nat) (t : Quadtree M) (a : AxisAlignedBoundingBox) (m : M) :
    insertFuel_rd id n t a m = insertFuel n t a m := by
  induction n generalizing t a m with
  | zero => rfl
  | succ n ih =>
    have hf : insertFuel_rd id n = (insertFuel n : Quadtree M → _) := by
      funext t a m
      exact ih t a m
    have hp : place_rd id (insertFuel n : Quadtree M → _) = place (insertFuel n) := by
      funext s el
      exact place_rd_id _ s el
    simp only [insertFuel_rd, insertFuel, hf, hp, collides_rd_id, subdivide_rd_id]

theorem insert_rd_id (t : Quadtree M) (a : AxisAlignedBoundingBox) (m : M) :
    t.insert_rd id a m = t.insert a m :=
  insertFuel_rd_id _ t a m

theorem insertAll_rd_id (t : Quadtree M) (ops : List (Element M)) :
    t.insertAll_rd id ops = t.insertAll ops := by
  induction ops generalizing t with
  | nil => rfl
  | cons el ops ih =>
    simp only [insertAll_rd, insertAll, List.foldl_cons, insert_rd_id] at ih ⊢

theorem query_region_rd_id [DecidableEq M] (t : Quadtree M) (R : AxisAlignedBoundingBox) :
    t.query_region_rd id R = t.query_region R := by
  induction t with
  | leaf b c d els => rfl
  | node b c d els ne nw se sw ih1 ih2 ih3 ih4 =>
    simp only [query_region_rd, query_region, ih1, ih2, ih3, ih4, collides_rd_id]

/-- In binary64 arithmetic an inserted entry that satisfies every condition of the
completeness of `query_region` can be missed.  Root `(0.1, 0, 1.3, 1)`, capacity 1, inserts
`(1.3, 0.25, 0.1, 0.25)` and `(0.2, 0.6, 0.1, 0.1)`, query `(1.4, 0.25, 1, 0.25)` (the decimal
numbers rounded to doubles): the first entry lies within the root boundary and collides with it
and with the query rectangle, exactly and in doubles, but `x + w` of the northeast child rounds
to `1.4`, so no child collides with the query rectangle and `query_region` returns nothing,
while with exact sums it returns the entry. -/
theorem query_region_rd_misses_entry :
    (0 : ℚ) < 1 ∧ (0 : ℚ) < 1 / 4 ∧
      contains ⟨round_double (1 / 10), 0, round_double (13 / 10), 1⟩
        ⟨round_double (13 / 10), 1 / 4, round_double (1 / 10), 1 / 4⟩ = true ∧
      collides ⟨round_double (1 / 10), 0, round_double (13 / 10), 1⟩
        ⟨round_double (13 / 10), 1 / 4, round_double (1 / 10), 1 / 4⟩ = true ∧
      collides ⟨round_double (13 / 10), 1 / 4, round_double (1 / 10), 1 / 4⟩
        ⟨round_double (14 / 10), 1 / 4, 1, 1 / 4⟩ = true ∧
      collides_rd round_double ⟨round_double (1 / 10), 0, round_double (13 / 10), 1⟩
        ⟨round_double (13 / 10), 1 / 4, round_double (1 / 10), 1 / 4⟩ = true ∧
      collides_rd round_double ⟨round_double (13 / 10), 1 / 4, round_double (1 / 10), 1 / 4⟩
        ⟨round_double (14 / 10), 1 / 4, 1, 1 / 4⟩ = true ∧
      ((mk ⟨round_double (1 / 10), 0, round_double (13 / 10), 1⟩ 1 0).insertAll_rd round_double
        [(⟨⟨round_double (13 / 10), 1 / 4, round_double (1 / 10), 1 / 4⟩, 1⟩ : Element Nat),
          ⟨⟨round_double (2 / 10), round_double (6 / 10), round_double (1 / 10),
            round_double (1 / 10)⟩, 2⟩]).query_region_rd round_double
          ⟨round_double (14 / 10), 1 / 4, 1, 1 / 4⟩ = [] ∧
      ((mk ⟨round_double (1 / 10), 0, round_double (13 / 10), 1⟩ 1 0).insertAll
        [(⟨⟨round_double (13 / 10), 1 / 4, round_double (1 / 10), 1 / 4⟩, 1⟩ : Element Nat),
          ⟨⟨round_double (2 / 10), round_double (6 / 10), round_double (1 / 10),
            round_double (1 / 10)⟩, 2⟩]).query_region
          ⟨round_double (14 / 10), 1 / 4, 1, 1 / 4⟩ =
        [⟨⟨round_double (13 / 10), 1 / 4, round_double (1 / 10), 1 / 4⟩, 1⟩] := by
  refine ⟨by norm_num, by norm_num, ?_, ?_, ?_, ?_, ?_, ?_, ?_⟩ <;> decide!

/-- Values of `round_double`: representable numbers are kept, `0.1` becomes the double
`0x3FB999999999999A`, and the ties `2^53 + 1` and `2^53 + 3` go to the even significands. -/
theorem round_double_values :
    round_double 1 = 1 ∧ round_double 100 = 100 ∧ round_double (-5 / 2) = -5 / 2 ∧
      round_double (1 / 10) = 3602879701896397 / 36028797018963968 ∧
      round_double 9007199254740993 = 9007199254740992 ∧
      round_double 9007199254740995 = 9007199254740996 ∧
      round_double (-9007199254740993) = -9007199254740992 := by
  decide!

end Quadtree

/-! ## The claims -/

open Quadtree

/-- C1. Query soundness: in a tree built from a freshly constructed root by any sequence of
`insert` calls, every entry of `query_region(R)` has a box that collides with `R`. -/
theorem query_region_sound {M : Type} [DecidableEq M] (B : AxisAlignedBoundingBox) (c d : Nat)
    (ops : List (Element M)) (R : AxisAlignedBoundingBox) (e : Element M)
    (h : e ∈ ((mk B c d).insertAll ops).query_region R) : collides e.box R = true :=
  collides_of_mem_query_region _ R e h

/-- The instance of C1 in `test_query_normal`. -/
theorem query_region_sound_witness :
    (⟨⟨10, 10, 5, 5⟩, 1⟩ : Element Nat) ∈
        ((mk B100 4 0).insertAll [⟨⟨10, 10, 5, 5⟩, 1⟩, ⟨⟨80, 80, 5, 5⟩, 2⟩]).query_region
          ⟨0, 0, 30, 30⟩ ∧
      collides ⟨10, 10, 5, 5⟩ ⟨0, 0, 30, 30⟩ = true :=
  ⟨by decide!, query_region_sound B100 4 0 [⟨⟨10, 10, 5, 5⟩, 1⟩, ⟨⟨80, 80, 5, 5⟩, 2⟩]
    ⟨0, 0, 30, 30⟩ (⟨⟨10, 10, 5, 5⟩, 1⟩ : Element Nat) (by decide!)⟩

/-- C2, as stated, fails. Root `(0,0,100,100)`, capacity 1, inserts `(45,45,10,10)` (999) and
`(10,10,5,5)` (7): the first entry is inserted, lies within the root boundary and collides with
the query rectangle `(50,50,0,0)`, yet `query_region` returns nothing, because no child
boundary collides with a zero-size rectangle on the split point. And the zero-size entry
`(0,0,0,0)` lies within the root boundary and collides with `(-5,-5,10,10)`, but `insert`
drops it, because it does not collide with the root boundary. -/
theorem query_region_complete_fails :
    ((⟨⟨45, 45, 10, 10⟩, 999⟩ : Element Nat) ∈
        [(⟨⟨45, 45, 10, 10⟩, 999⟩ : Element Nat), ⟨⟨10, 10, 5, 5⟩, 7⟩] ∧
      collides ⟨45, 45, 10, 10⟩ ⟨50, 50, 0, 0⟩ = true ∧
      contains B100 ⟨45, 45, 10, 10⟩ = true ∧
      ((mk B100 1 0).insertAll
        [(⟨⟨45, 45, 10, 10⟩, 999⟩ : Element Nat), ⟨⟨10, 10, 5, 5⟩, 7⟩]).query_region
          ⟨50, 50, 0, 0⟩ = []) ∧
    (collides ⟨0, 0, 0, 0⟩ ⟨-5, -5, 10, 10⟩ = true ∧
      contains B100 ⟨0, 0, 0, 0⟩ = true ∧
      ((mk B100 1 0).insertAll [(⟨⟨0, 0, 0, 0⟩, 5⟩ : Element Nat)]).query_region
        ⟨-5, -5, 10, 10⟩ = []) := by
  decide!

/-- C2, amended. Query completeness over exact arithmetic (the sums `x + w`, `y + h` and the
halves `w / 2`, `h / 2` without rounding): in a tree built from a fresh root (depth 0, any
capacity) by any sequence of `insert` calls, for every query rectangle `R` of positive width and
height, every inserted entry whose box collides with `R`, collides with the root boundary and
lies within it occurs in `query_region(R)` exactly once.  On doubles the rounding of `x + w`
can open a gap between a child boundary and its parent, see `query_region_rd_misses_entry`. -/
theorem query_region_complete {M : Type} [DecidableEq M] (B : AxisAlignedBoundingBox) (c : Nat)
    (ops : List (Element M)) (R : AxisAlignedBoundingBox) (e : Element M)
    (hRw : 0 < R.w) (hRh : 0 < R.h) (he : e ∈ ops) (hR : collides e.box R = true)
    (hB : collides B e.box = true) (hin : contains B e.box = true) :
    List.count e (((mk B c 0).insertAll ops).query_region R) = 1 := by
  apply List.count_eq_one_of_mem (nodup_query_region _ R)
  have hBR : collides B R = true := by
    simp only [contains, Bool.and_eq_true, decide_eq_true_eq] at hin
    rw [collides_iff] at hR hB ⊢
    obtain ⟨⟨⟨i1, i2⟩, i3⟩, i4⟩ := hin
    obtain ⟨r1, r2, r3, r4⟩ := hR
    exact ⟨by linarith, by linarith, by linarith, by linarith⟩
  have hb : ((mk B c 0 : Quadtree M).insertAll ops).boundary = B := boundary_insertAll _ ops
  refine mem_query_region_of_holds _ (quadrants_insertAll (mk B c 0) ops trivial) R hRw hRh e
    (holds_insertAll _ ops e he hB) ?_ ?_ hR
  · rw [hb]; exact hB
  · rw [hb]; exact hBR

/-- An instance of the amended C2: the entry that straddles both split lines. -/
theorem query_region_complete_witness :
    List.count (⟨⟨45, 45, 10, 10⟩, 999⟩ : Element Nat)
      (((mk B100 1 0).insertAll
        [(⟨⟨45, 45, 10, 10⟩, 999⟩ : Element Nat), ⟨⟨10, 10, 5, 5⟩, 7⟩]).query_region
          ⟨40, 40, 20, 20⟩) = 1 :=
  query_region_complete B100 1 [(⟨⟨45, 45, 10, 10⟩, 999⟩ : Element Nat), ⟨⟨10, 10, 5, 5⟩, 7⟩]
    ⟨40, 40, 20, 20⟩ ⟨⟨45, 45, 10, 10⟩, 999⟩ (by norm_num) (by norm_num) (by decide!)
    (by decide!) (by decide!) (by decide!)

/-- C3. Dedup invariant of the snapshot: after any sequence of `insert` calls on a fresh
tree with boundary `B`, the snapshot of `begin()` has no two equal entries, its entries are
exactly the inserted entries whose box collides with `B`, and so its size is the number of
distinct inserted entries that collide with `B`. -/
theorem snapshot_dedup {M : Type} [DecidableEq M] (B : AxisAlignedBoundingBox) (c : Nat)
    (ops : List (Element M)) :
    ((mk B c 0).insertAll ops).allEntries.Nodup ∧
      (∀ e, e ∈ ((mk B c 0).insertAll ops).allEntries ↔ e ∈ ops ∧ collides B e.box = true) ∧
      ((mk B c 0).insertAll ops).allEntries.length =
        ((ops.filter (fun e => collides B e.box)).dedup).length := by
  have hmem : ∀ e, e ∈ ((mk B c 0).insertAll ops).allEntries ↔
      e ∈ ops ∧ collides B e.box = true := by
    intro e
    rw [mem_allEntries, mem_stored_insertAll]
    simp [mk, stored, boundary]
  refine ⟨nodup_allEntries _, hmem, ?_⟩
  apply List.Perm.length_eq
  rw [List.perm_ext_iff_of_nodup (nodup_allEntries _) (List.nodup_dedup _)]
  intro e
  rw [hmem e, List.mem_dedup, List.mem_filter]

/-- C4. Query deduplication: `query_region(R)` never holds two equal entries, whatever the
tree built by inserts.  The entry `(45,45,10,10)` of `test_query_edge` is returned once in
the capacity-1 tree, and still once after a second insert has subdivided the root and put a
copy of it into each of the four children, and once when it is inserted twice. -/
theorem query_region_dedup :
    (∀ (M : Type) [DecidableEq M] (B : AxisAlignedBoundingBox) (c d : Nat)
        (ops : List (Element M)) (R : AxisAlignedBoundingBox),
        (((mk B c d).insertAll ops).query_region R).Nodup) ∧
      (((mk B100 1 0 : Quadtree Nat).insert ⟨45, 45, 10, 10⟩ 999).query_region B100).length
        = 1 ∧
      (List.count (⟨⟨45, 45, 10, 10⟩, 999⟩ : Element Nat)
          ((mk B100 1 0).insertAll
            [(⟨⟨45, 45, 10, 10⟩, 999⟩ : Element Nat), ⟨⟨10, 10, 5, 5⟩, 7⟩]).stored = 4 ∧
        List.count (⟨⟨45, 45, 10, 10⟩, 999⟩ : Element Nat)
          (((mk B100 1 0).insertAll
            [(⟨⟨45, 45, 10, 10⟩, 999⟩ : Element Nat), ⟨⟨10, 10, 5, 5⟩, 7⟩]).query_region
              B100) = 1) ∧
      ((mk B100 4 0).insertAll
          [(⟨⟨45, 45, 10, 10⟩, 999⟩ : Element Nat), ⟨⟨45, 45, 10, 10⟩, 999⟩]).query_region
            B100 = [⟨⟨45, 45, 10, 10⟩, 999⟩] := by
  refine ⟨fun M _ B c d ops R => nodup_query_region _ R, by decide!, by decide!, by decide!⟩

/-- C5. Out-of-bounds drop: an `insert` whose rectangle does not collide with the boundary of
the node it is called on leaves the whole tree unchanged, and with it the snapshot, every
`query_region` result and `get_all_regions`. -/
theorem insert_out_of_bounds {M : Type} [DecidableEq M] (t : Quadtree M)
    (aabb : AxisAlignedBoundingBox) (meta : M) (h : collides t.boundary aabb = false) :
    t.insert aabb meta = t ∧
      (t.insert aabb meta).allEntries = t.allEntries ∧
      (∀ R, (t.insert aabb meta).query_region R = t.query_region R) ∧
      (t.insert aabb meta).get_all_regions = t.get_all_regions := by
  rw [insert_of_not_collides t aabb meta h]
  exact ⟨rfl, rfl, fun _ => rfl, rfl⟩

/-- The instance of C5 in `test_insert_edge`: `(200,200,10,10)` into root `(0,0,100,100)`. -/
theorem insert_out_of_bounds_witness :
    collides (mk B100 4 0 : Quadtree Nat).boundary ⟨200, 200, 10, 10⟩ = false ∧
      (mk B100 4 0 : Quadtree Nat).insert ⟨200, 200, 10, 10⟩ 1 = mk B100 4 0 ∧
      ((mk B100 4 0 : Quadtree Nat).insert ⟨200, 200, 10, 10⟩ 1).query_region B100 = [] :=
  ⟨by decide!,
    (insert_out_of_bounds (mk B100 4 0 : Quadtree Nat) ⟨200, 200, 10, 10⟩ 1 (by decide!)).1,
    by decide!⟩

/-- C6. Query outside the tree: when the query rectangle does not collide with the root
boundary, `query_region` is empty for every tree built by inserts. -/
theorem query_region_outside {M : Type} [DecidableEq M] (B : AxisAlignedBoundingBox)
    (c d : Nat) (ops : List (Element M)) (R : AxisAlignedBoundingBox)
    (h : collides B R = false) : ((mk B c d).insertAll ops).query_region R = [] := by
  apply query_region_of_not_collides
  rw [boundary_insertAll]
  exact h

/-- An instance of C6 with a stored entry, `(90,90,50,50)`, that sticks out of the root
boundary and collides with the query rectangle `(120,120,10,10)`. -/
theorem query_region_outside_witness :
    collides B100 ⟨120, 120, 10, 10⟩ = false ∧
      (⟨⟨90, 90, 50, 50⟩, 3⟩ : Element Nat) ∈
        ((mk B100 4 0).insertAll [(⟨⟨90, 90, 50, 50⟩, 3⟩ : Element Nat)]).stored ∧
      collides ⟨90, 90, 50, 50⟩ ⟨120, 120, 10, 10⟩ = true ∧
      ((mk B100 4 0).insertAll [(⟨⟨90, 90, 50, 50⟩, 3⟩ : Element Nat)]).query_region
        ⟨120, 120, 10, 10⟩ = [] :=
  ⟨by decide!, by decide!, by decide!,
    query_region_outside B100 4 0 [(⟨⟨90, 90, 50, 50⟩, 3⟩ : Element Nat)] ⟨120, 120, 10, 10⟩
      (by decide!)⟩

/-- C7, as stated, fails. With a 64-bit `size_t`, a snapshot of one entry and `k = 2^64`
increments, `current_index` has wrapped to 0: the cursor is not exhausted and does not compare
equal to `end()`, although `k ≥ n = 1`. -/
theorem snapshot_cursor_wraps :
    ((mk B100 4 0 : Quadtree Nat).insert ⟨10, 10, 5, 5⟩ 1).allEntries.length = 1 ∧
      1 ≤ 2 ^ 64 ∧
      ((Iterator.incr 64)^[2 ^ 64]
        (((mk B100 4 0 : Quadtree Nat).insert ⟨10, 10, 5, 5⟩ 1).begin 0)).eq
          ((mk B100 4 0 : Quadtree Nat).insert ⟨10, 10, 5, 5⟩ 1).end_ = false := by
  refine ⟨by decide!, by decide!, ?_⟩
  rw [Quadtree.begin, incr_iterate 64 _ 0 (2 ^ 64) (by decide!)]
  decide!

/-- C7, amended. Snapshot iteration length, with `size_t` of `bits` bits and a snapshot of
`n < 2^bits` distinct entries: for every `k < 2^bits` the cursor of `begin()` after `k`
increments compares equal to `end()` if and only if `k ≥ n`; the loop
`for (it = begin(); it != end(); ++it)` ends after visiting exactly the entries of the snapshot,
which are the distinct stored entries, each once; and for a freshly constructed tree
`begin() == end()` and two independently taken `begin()` cursors compare equal. -/
theorem snapshot_iteration {M : Type} [DecidableEq M] (bits : Nat) (t : Quadtree M)
    (addr : Nat) (hn : t.allEntries.length < 2 ^ bits) :
    (∀ k, k < 2 ^ bits →
        (((Iterator.incr bits)^[k] (t.begin addr)).eq t.end_ = true ↔
          t.allEntries.length ≤ k)) ∧
      get_all_helper bits (t.allEntries.length + 1) t addr = some t.allEntries ∧
      t.allEntries.Nodup ∧ (∀ e, e ∈ t.allEntries ↔ e ∈ t.stored) ∧
      (∀ (B : AxisAlignedBoundingBox) (c d a1 a2 : Nat),
        ((mk B c d : Quadtree M).begin a1).eq (mk B c d : Quadtree M).end_ = true ∧
        ((mk B c d : Quadtree M).begin a1).eq ((mk B c d : Quadtree M).begin a2) = true) := by
  refine ⟨?_, ?_, nodup_allEntries t, mem_allEntries t, ?_⟩
  · intro k hk
    rw [Quadtree.begin, incr_iterate bits _ 0 k (Nat.pos_pow_of_pos bits (by decide)), eq_end_]
    simp [Iterator.is_exhausted, Nat.mod_eq_of_lt hk]
  · rw [get_all_helper, Quadtree.begin,
      iterate_snapshot bits t addr t.allEntries hn t.allEntries.length 0 (by omega) []]
    simp
  · intro B c d a1 a2
    have h : ∀ a, ((mk B c d : Quadtree M).begin a).is_exhausted = true := by
      intro a
      simp [Quadtree.begin, Iterator.is_exhausted, allEntries, collect_all_unique, mk,
        insertRange]
    exact ⟨by rw [eq_end_]; exact h a1, eq_of_exhausted _ _ (h a1) (h a2)⟩

/-- The instance of the amended C7 in `test_iterator_normal`: two entries, 64-bit `size_t`. -/
theorem snapshot_iteration_witness :
    ((mk B100 4 0).insertAll
        [(⟨⟨10, 10, 5, 5⟩, 1⟩ : Element Nat), ⟨⟨50, 50, 5, 5⟩, 2⟩]).allEntries.length = 2 ∧
      get_all_helper 64
        (((mk B100 4 0).insertAll
          [(⟨⟨10, 10, 5, 5⟩, 1⟩ : Element Nat), ⟨⟨50, 50, 5, 5⟩, 2⟩]).allEntries.length + 1)
        ((mk B100 4 0).insertAll
          [(⟨⟨10, 10, 5, 5⟩, 1⟩ : Element Nat), ⟨⟨50, 50, 5, 5⟩, 2⟩]) 0 =
      some ((mk B100 4 0).insertAll
          [(⟨⟨10, 10, 5, 5⟩, 1⟩ : Element Nat), ⟨⟨50, 50, 5, 5⟩, 2⟩]).allEntries :=
  ⟨by decide!, (snapshot_iteration 64 ((mk B100 4 0).insertAll
    [(⟨⟨10, 10, 5, 5⟩, 1⟩ : Element Nat), ⟨⟨50, 50, 5, 5⟩, 2⟩]) 0 (by decide!)).2.1⟩

/-- C8. Overlap symmetry: `collides(a, b) = collides(b, a)` for all rectangles, also with
zero or negative extents. -/
theorem collides_symm (a b : AxisAlignedBoundingBox) : collides a b = collides b a := by
  rw [Bool.eq_iff_iff, collides_iff, collides_iff]
  tauto

/-- C9. Edge-touch exclusion: when the far edge of one rectangle coincides with the near edge
of the other on some axis, the two do not collide. -/
theorem collides_edge_touch (a b : AxisAlignedBoundingBox)
    (h : a.x + a.w = b.x ∨ b.x + b.w = a.x ∨ a.y + a.h = b.y ∨ b.y + b.h = a.y) :
    collides a b = false := by
  rw [← Bool.not_eq_true, collides_iff]
  rintro ⟨h1, h2, h3, h4⟩
  rcases h with h | h | h | h <;> linarith

/-- The instance of C9 in `test_collides_edge`: `(0,0,10,10)` and `(10,0,10,10)`. -/
theorem collides_edge_touch_witness :
    ((0 : ℚ) + 10 = 10 ∨ (10 : ℚ) + 10 = 0 ∨ (0 : ℚ) + 10 = 0 ∨ (0 : ℚ) + 10 = 0) ∧
      collides ⟨0, 0, 10, 10⟩ ⟨10, 0, 10, 10⟩ = false :=
  ⟨Or.inl (by norm_num), collides_edge_touch ⟨0, 0, 10, 10⟩ ⟨10, 0, 10, 10⟩
    (Or.inl (by norm_num))⟩

/-- C10, as stated, fails: `(5,0,-1,1)` has negative width and collides, in both argument
orders, with `(0,0,10,10)`, which spans it. -/
theorem collides_negative_extent :
    (⟨5, 0, -1, 1⟩ : AxisAlignedBoundingBox).w < 0 ∧
      collides ⟨5, 0, -1, 1⟩ ⟨0, 0, 10, 10⟩ = true ∧
      collides ⟨0, 0, 10, 10⟩ ⟨5, 0, -1, 1⟩ = true := by
  decide!

/-- C10, amended. A rectangle `a` with negative width (height) does not collide, in either
argument order, with any rectangle `b` whose width (height) is at most the absolute value of
`a`'s: in particular not with itself, nor with a rectangle of zero or negative extent on that
axis. -/
theorem collides_negative_extent_narrow (a b : AxisAlignedBoundingBox)
    (h : (a.w < 0 ∧ b.w ≤ -a.w) ∨ (a.h < 0 ∧ b.h ≤ -a.h)) :
    collides a b = false ∧ collides b a = false := by
  rw [← Bool.not_eq_true, ← Bool.not_eq_true, collides_iff, collides_iff]
  constructor
  · rintro ⟨h1, h2, h3, h4⟩
    rcases h with ⟨h, h5⟩ | ⟨h, h5⟩ <;> linarith
  · rintro ⟨h1, h2, h3, h4⟩
    rcases h with ⟨h, h5⟩ | ⟨h, h5⟩ <;> linarith

/-- An instance of the amended C10: `(5,0,-1,1)` against `(0,0,1,10)`. -/
theorem collides_negative_extent_narrow_witness :
    collides ⟨5, 0, -1, 1⟩ ⟨0, 0, 1, 10⟩ = false ∧
      collides ⟨0, 0, 1, 10⟩ ⟨5, 0, -1, 1⟩ = false :=
  collides_negative_extent_narrow ⟨5, 0, -1, 1⟩ ⟨0, 0, 1, 10⟩ (Or.inl (by norm_num))

/-- C11. Region listing order: `get_all_regions` is the pre-order listing of the node
boundaries with the children in the order NE, NW, SE, SW: a leaf yields `[boundary]`, a divided
node its boundary followed by the listings of its four subtrees.  A fresh tree yields
`[boundary]`, the first element is always the root boundary, and a root whose four children
are leaves yields the boundary and the four quadrants. -/
theorem get_all_regions_preorder {M : Type} :
    (∀ t : Quadtree M, t.get_all_regions = t.preorder) ∧
      (∀ b c d els, (leaf b c d els : Quadtree M).get_all_regions = [b]) ∧
      (∀ b c d els (ne nw se sw : Quadtree M), (node b c d els ne nw se sw).get_all_regions =
        b :: (ne.get_all_regions ++ (nw.get_all_regions ++
          (se.get_all_regions ++ sw.get_all_regions)))) ∧
      (∀ B c d, (mk B c d : Quadtree M).get_all_regions = [B]) ∧
      (∀ t : Quadtree M, t.get_all_regions.head? = some t.boundary) ∧
      (∀ t : Quadtree M, (t.subdivide).get_all_regions =
        [t.boundary,
          ⟨t.boundary.x + t.boundary.w / 2, t.boundary.y, t.boundary.w / 2, t.boundary.h / 2⟩,
          ⟨t.boundary.x, t.boundary.y, t.boundary.w / 2, t.boundary.h / 2⟩,
          ⟨t.boundary.x + t.boundary.w / 2, t.boundary.y + t.boundary.h / 2,
            t.boundary.w / 2, t.boundary.h / 2⟩,
          ⟨t.boundary.x, t.boundary.y + t.boundary.h / 2, t.boundary.w / 2,
            t.boundary.h / 2⟩]) ∧
      (∀ (B : AxisAlignedBoundingBox) (c d : Nat) (ops : List (Element M)) b c0 d0 els
          b1 c1 d1 e1 b2 c2 d2 e2 b3 c3 d3 e3 b4 c4 d4 e4,
        (mk B c d).insertAll ops = node b c0 d0 els (leaf b1 c1 d1 e1) (leaf b2 c2 d2 e2)
          (leaf b3 c3 d3 e3) (leaf b4 c4 d4 e4) →
        ((mk B c d).insertAll ops).get_all_regions =
          [B, ⟨B.x + B.w / 2, B.y, B.w / 2, B.h / 2⟩, ⟨B.x, B.y, B.w / 2, B.h / 2⟩,
            ⟨B.x + B.w / 2, B.y + B.h / 2, B.w / 2, B.h / 2⟩,
            ⟨B.x, B.y + B.h / 2, B.w / 2, B.h / 2⟩]) := by
  refine ⟨get_all_regions_eq, fun _ _ _ _ => rfl, ?_, fun _ _ _ => rfl, ?_, ?_, ?_⟩
  · intro b c d els ne nw se sw
    simp only [get_all_regions_eq, preorder]
  · intro t
    rw [get_all_regions_eq, preorder_head]
  · intro t
    rfl
  · intro B c d ops b c0 d0 els b1 c1 d1 e1 b2 c2 d2 e2 b3 c3 d3 e3 b4 c4 d4 e4 h
    have hq := quadrants_insertAll (mk B c d : Quadtree M) ops trivial
    have hb := boundary_insertAll (mk B c d : Quadtree M) ops
    rw [h] at hq hb ⊢
    obtain ⟨q1, q2, q3, q4, _⟩ := hq
    simp only [boundary] at q1 q2 q3 q4 hb
    rw [get_all_regions_eq]
    simp only [preorder, q1, q2, q3, q4, hb, mk, boundary]
    rfl

/-- The instance of C11 after two inserts into a capacity-1 root: the root and its four
leaf children. -/
theorem get_all_regions_preorder_witness :
    ((mk B100 1 0).insertAll
        [(⟨⟨10, 10, 5, 5⟩, 1⟩ : Element Nat), ⟨⟨60, 60, 5, 5⟩, 2⟩]).get_all_regions =
      [⟨0, 0, 100, 100⟩, ⟨50, 0, 50, 50⟩, ⟨0, 0, 50, 50⟩, ⟨50, 50, 50, 50⟩, ⟨0, 50, 50, 50⟩] ∧
    ((mk B100 1 0).insertAll
        [(⟨⟨10, 10, 5, 5⟩, 1⟩ : Element Nat), ⟨⟨60, 60, 5, 5⟩, 2⟩]).get_all_regions =
      ((mk B100 1 0).insertAll
        [(⟨⟨10, 10, 5, 5⟩, 1⟩ : Element Nat), ⟨⟨60, 60, 5, 5⟩, 2⟩]).preorder :=
  ⟨by decide!, get_all_regions_preorder.1 _⟩

/-- C12. Duplication into every overlapping subtree: in a tree built by inserts from a fresh
root whose boundary has positive width and height, every inserted entry that collides with the
root boundary is in the local buffer of every leaf whose boundary it collides with. -/
theorem leaf_holds_overlapping {M : Type} (B : AxisAlignedBoundingBox) (c d : Nat)
    (ops : List (Element M)) (e : Element M) (L : Quadtree M) (hw : 0 < B.w) (hh : 0 < B.h)
    (he : e ∈ ops) (hB : collides B e.box = true) (hL : L ∈ ((mk B c d).insertAll ops).nodes)
    (hd : L.divided = false) (hc : collides L.boundary e.box = true) : e ∈ L.elements := by
  have hb : ((mk B c d : Quadtree M).insertAll ops).boundary = B := boundary_insertAll _ ops
  exact mem_leaf_of_holds _ (quadrants_insertAll (mk B c d) ops trivial)
    (inv_insertAll _ ops (inv_mk B c d)) (by rw [hb]; exact le_of_lt hw)
    (by rw [hb]; exact le_of_lt hh) e (Or.inl (holds_insertAll _ ops e he hB)) L hL hd hc

/-- An instance of C12: `(45,45,10,10)` is stored at the root, is handed to all four children
when the second insert subdivides the root, and is in the northeast leaf `(50,0,50,50)`. -/
theorem leaf_holds_overlapping_witness :
    (leaf ⟨50, 0, 50, 50⟩ 1 1 [⟨⟨45, 45, 10, 10⟩, 999⟩] : Quadtree Nat) ∈
        ((mk B100 1 0).insertAll
          [(⟨⟨45, 45, 10, 10⟩, 999⟩ : Element Nat), ⟨⟨10, 10, 5, 5⟩, 7⟩]).nodes ∧
      collides ⟨50, 0, 50, 50⟩ ⟨45, 45, 10, 10⟩ = true ∧
      (⟨⟨45, 45, 10, 10⟩, 999⟩ : Element Nat) ∈
        (leaf ⟨50, 0, 50, 50⟩ 1 1 [⟨⟨45, 45, 10, 10⟩, 999⟩] : Quadtree Nat).elements :=
  ⟨by decide!, by decide!,
    leaf_holds_overlapping B100 1 0
      [(⟨⟨45, 45, 10, 10⟩, 999⟩ : Element Nat), ⟨⟨10, 10, 5, 5⟩, 7⟩] ⟨⟨45, 45, 10, 10⟩, 999⟩
      (leaf ⟨50, 0, 50, 50⟩ 1 1 [⟨⟨45, 45, 10, 10⟩, 999⟩]) (by decide!) (by decide!)
      (by decide!) (by decide!) (by decide!) rfl (by decide!)⟩

/-- C13. Depth bound: in a tree built by inserts from a root constructed at depth 0, every
child is one level deeper than its parent, no node is deeper than `max_depth = 8`, and a node at
depth 8 is a leaf on which `insert` only appends; so the tree has at most 8 levels below the
root, and `insert` returns: 9 units of recursion depth, or any more, give its result. -/
theorem depth_bound {M : Type} (B : AxisAlignedBoundingBox) (c : Nat)
    (ops : List (Element M)) :
    max_depth = 8 ∧
      (∀ N ∈ ((mk B c 0).insertAll ops).nodes,
        N.depth ≤ max_depth ∧ (∀ ch ∈ N.children, ch.depth = N.depth + 1) ∧
        (N.depth = max_depth → N.divided = false ∧
          ∀ aabb meta, collides N.boundary aabb = true →
            N.insert aabb meta = N.push_back ⟨aabb, meta⟩ ∧
            (N.insert aabb meta).divided = false)) ∧
      ((mk B c 0).insertAll ops).height ≤ max_depth ∧
      (∀ aabb meta fuel, max_depth + 1 ≤ fuel →
        insertFuel fuel ((mk B c 0).insertAll ops) aabb meta =
          ((mk B c 0).insertAll ops).insert aabb meta) := by
  have hI : ((mk B c 0 : Quadtree M).insertAll ops).Inv := inv_insertAll _ ops (inv_mk B c 0)
  have hd : ((mk B c 0 : Quadtree M).insertAll ops).depth = 0 := depth_insertAll _ ops
  refine ⟨rfl, ?_, ?_, ?_⟩
  · intro N hN
    obtain ⟨f1, f2, _, _⟩ := node_facts_of_inv (inv_of_mem_nodes hI hN)
    refine ⟨depth_le_of_mem_nodes hI (by rw [hd]; exact Nat.zero_le _) hN,
      fun ch hch => (f1 ch hch).1, fun h8 => ?_⟩
    have hleaf : N.divided = false := by
      cases hdv : N.divided
      · rfl
      · have := f2 hdv
        omega
    refine ⟨hleaf, fun aabb meta hc => ?_⟩
    have e := insert_at_max_depth N aabb meta (le_of_eq h8.symm) hc
    refine ⟨e, ?_⟩
    rw [e]
    cases N <;> simp_all [divided, push_back]
  · have := height_le_of_inv hI
    omega
  · intro aabb meta fuel hf
    apply insertFuel_eq_insert
    have := rank_le_of_inv hI
    omega

/-- An instance of C13: with capacity 0 one insert subdivides down to depth 8; the tree then
has exactly 8 levels below the root and the leaf at `(50,50)` of depth 8 holds the entry. -/
theorem depth_bound_witness :
    ((mk B100 0 0).insertAll [(⟨⟨50, 50, 1 / 4, 1 / 4⟩, 1⟩ : Element Nat)]).height = 8 ∧
      ((mk B100 0 0).insertAll [(⟨⟨50, 50, 1 / 4, 1 / 4⟩, 1⟩ : Element Nat)]).height ≤
        max_depth :=
  ⟨by decide!, (depth_bound B100 0 [(⟨⟨50, 50, 1 / 4, 1 / 4⟩, 1⟩ : Element Nat)]).2.2.1⟩

/-- C14, as stated, fails for nodes that are not leaves.  Root `(0,0,100,100)`, capacity 1,
inserts `(10,10,5,5)` and three times the zero-size `(50,50,0,0)`: the second insert subdivides
the root, and the zero-size rectangles on the split point collide with no child, so the
divided root, at depth 0, holds three local entries. -/
theorem divided_node_over_capacity :
    ((mk B100 1 0).insertAll [(⟨⟨10, 10, 5, 5⟩, 1⟩ : Element Nat), ⟨⟨50, 50, 0, 0⟩, 2⟩,
        ⟨⟨50, 50, 0, 0⟩, 3⟩, ⟨⟨50, 50, 0, 0⟩, 4⟩]) ∈
      ((mk B100 1 0).insertAll [(⟨⟨10, 10, 5, 5⟩, 1⟩ : Element Nat), ⟨⟨50, 50, 0, 0⟩, 2⟩,
        ⟨⟨50, 50, 0, 0⟩, 3⟩, ⟨⟨50, 50, 0, 0⟩, 4⟩]).nodes ∧
    ((mk B100 1 0).insertAll [(⟨⟨10, 10, 5, 5⟩, 1⟩ : Element Nat), ⟨⟨50, 50, 0, 0⟩, 2⟩,
        ⟨⟨50, 50, 0, 0⟩, 3⟩, ⟨⟨50, 50, 0, 0⟩, 4⟩]).divided = true ∧
    ((mk B100 1 0).insertAll [(⟨⟨10, 10, 5, 5⟩, 1⟩ : Element Nat), ⟨⟨50, 50, 0, 0⟩, 2⟩,
        ⟨⟨50, 50, 0, 0⟩, 3⟩, ⟨⟨50, 50, 0, 0⟩, 4⟩]).depth = 0 ∧
    (0 : Nat) < max_depth ∧
    ((mk B100 1 0).insertAll [(⟨⟨10, 10, 5, 5⟩, 1⟩ : Element Nat), ⟨⟨50, 50, 0, 0⟩, 2⟩,
        ⟨⟨50, 50, 0, 0⟩, 3⟩, ⟨⟨50, 50, 0, 0⟩, 4⟩]).capacity = 1 ∧
    ((mk B100 1 0).insertAll [(⟨⟨10, 10, 5, 5⟩, 1⟩ : Element Nat), ⟨⟨50, 50, 0, 0⟩, 2⟩,
        ⟨⟨50, 50, 0, 0⟩, 3⟩, ⟨⟨50, 50, 0, 0⟩, 4⟩]).elements.length = 3 := by
  decide!

/-- C14, amended. Leaf capacity invariant: in a tree built by inserts from a fresh root with
capacity `c`, a leaf whose depth is less than `max_depth` holds at most `c` local entries; a
leaf that holds more is at depth `max_depth`.  (Nothing is said of the local buffer of a
divided node.) -/
theorem leaf_capacity {M : Type} (B : AxisAlignedBoundingBox) (c : Nat)
    (ops : List (Element M)) (N : Quadtree M) (hN : N ∈ ((mk B c 0).insertAll ops).nodes)
    (hd : N.divided = false) :
    N.capacity = c ∧ (N.depth < max_depth → N.elements.length ≤ c) ∧
      (c < N.elements.length → N.depth = max_depth) := by
  have hI : ((mk B c 0 : Quadtree M).insertAll ops).Inv := inv_insertAll _ ops (inv_mk B c 0)
  have hd0 : ((mk B c 0 : Quadtree M).insertAll ops).depth = 0 := depth_insertAll _ ops
  have hc : N.capacity = c := by
    rw [capacity_of_mem_nodes hI hN, capacity_insertAll]
    rfl
  obtain ⟨_, _, f3, _⟩ := node_facts_of_inv (inv_of_mem_nodes hI hN)
  have hle := depth_le_of_mem_nodes hI (by rw [hd0]; exact Nat.zero_le _) hN
  refine ⟨hc, fun h => hc ▸ f3 hd h, fun h => ?_⟩
  by_contra hne
  have := f3 hd (by omega)
  omega

/-- An instance of C14: three accepted inserts into a capacity-2 root leave the northwest
leaf `(0,0,50,50)` at depth 1 with two entries. -/
theorem leaf_capacity_witness :
    (leaf ⟨0, 0, 50, 50⟩ 2 1 [⟨⟨10, 10, 5, 5⟩, 1⟩, ⟨⟨20, 20, 5, 5⟩, 2⟩] : Quadtree Nat) ∈
        ((mk B100 2 0).insertAll [(⟨⟨10, 10, 5, 5⟩, 1⟩ : Element Nat), ⟨⟨20, 20, 5, 5⟩, 2⟩,
          ⟨⟨60, 60, 5, 5⟩, 3⟩]).nodes ∧
      (leaf ⟨0, 0, 50, 50⟩ 2 1 [⟨⟨10, 10, 5, 5⟩, 1⟩, ⟨⟨20, 20, 5, 5⟩, 2⟩] :
        Quadtree Nat).elements.length ≤ 2 :=
  ⟨by decide!,
    (leaf_capacity B100 2 [(⟨⟨10, 10, 5, 5⟩, 1⟩ : Element Nat), ⟨⟨20, 20, 5, 5⟩, 2⟩,
      ⟨⟨60, 60, 5, 5⟩, 3⟩] (leaf ⟨0, 0, 50, 50⟩ 2 1 [⟨⟨10, 10, 5, 5⟩, 1⟩, ⟨⟨20, 20, 5, 5⟩, 2⟩])
      (by decide!) rfl).2.1 (by decide)⟩

/-- C15. Children partition the parent: for a node whose boundary `(x,y,w,h)` has `w > 0` and
`h > 0`, the four boundaries created by `subdivide` have extents `(w/2, h/2)`, no two of them
collide, and a rectangle of positive width and height collides with the parent boundary if and
only if it collides with at least one of them. -/
theorem subdivide_partition {M : Type} (t : Quadtree M) (hw : 0 < t.boundary.w)
    (hh : 0 < t.boundary.h) :
    (t.subdivide).children.map boundary =
        [⟨t.boundary.x + t.boundary.w / 2, t.boundary.y, t.boundary.w / 2, t.boundary.h / 2⟩,
          ⟨t.boundary.x, t.boundary.y, t.boundary.w / 2, t.boundary.h / 2⟩,
          ⟨t.boundary.x + t.boundary.w / 2, t.boundary.y + t.boundary.h / 2,
            t.boundary.w / 2, t.boundary.h / 2⟩,
          ⟨t.boundary.x, t.boundary.y + t.boundary.h / 2, t.boundary.w / 2,
            t.boundary.h / 2⟩] ∧
      ((t.subdivide).children.map boundary).Pairwise
        (fun a b => collides a b = false ∧ collides b a = false) ∧
      (∀ r : AxisAlignedBoundingBox, 0 < r.w → 0 < r.h →
        (collides t.boundary r = true ↔
          ∃ ch ∈ (t.subdivide).children, collides ch.boundary r = true)) := by
  refine ⟨rfl, pairwise_quadrants t.boundary, ?_⟩
  intro r hrw hrh
  rw [exists_child_subdivide_iff]
  exact ⟨collides_quadrant_of_collides t.boundary r hrw hrh,
    collides_of_collides_quadrant t.boundary r (le_of_lt hw) (le_of_lt hh)⟩

/-- An instance of C15: the root `(0,0,100,100)` and the rectangle `(45,45,10,10)`. -/
theorem subdivide_partition_witness :
    collides (mk B100 4 0 : Quadtree Nat).boundary ⟨45, 45, 10, 10⟩ = true ∧
      ∃ ch ∈ ((mk B100 4 0 : Quadtree Nat).subdivide).children,
        collides ch.boundary ⟨45, 45, 10, 10⟩ = true :=
  ⟨by decide!,
    ((subdivide_partition (mk B100 4 0 : Quadtree Nat) (by decide!) (by decide!)).2.2
      ⟨45, 45, 10, 10⟩ (by norm_num) (by norm_num)).1 (by decide!)⟩

/-- C16. Subdivision trigger: an insert that collides with the boundary of a leaf at depth
below `max_depth` appends the entry at the end of the local buffer and leaves the node a leaf
when the buffer holds fewer than `capacity` entries, and subdivides the node otherwise.  A
fresh root with capacity `c` is the single leaf holding the accepted entries (and
`get_all_regions = [boundary]`) while at most `c` inserts were accepted, and is divided once
`c + 1` were; with capacity 0 the first accepted insert subdivides it. -/
theorem subdivision_trigger {M : Type} :
    (∀ (b : AxisAlignedBoundingBox) (c d : Nat) (els : List (Element M))
        (aabb : AxisAlignedBoundingBox) (meta : M),
        d < max_depth → collides b aabb = true →
        (els.length < c →
          (leaf b c d els).insert aabb meta = leaf b c d (els ++ [⟨aabb, meta⟩])) ∧
        (c ≤ els.length → ((leaf b c d els).insert aabb meta).divided = true)) ∧
      (∀ (B : AxisAlignedBoundingBox) (c d : Nat) (ops : List (Element M)),
        (ops.filter (fun e => collides B e.box)).length ≤ c →
        (mk B c d).insertAll ops = leaf B c d (ops.filter (fun e => collides B e.box)) ∧
        ((mk B c d).insertAll ops).get_all_regions = [B]) ∧
      (∀ (B : AxisAlignedBoundingBox) (c d : Nat) (ops : List (Element M)),
        d < max_depth → c + 1 ≤ (ops.filter (fun e => collides B e.box)).length →
        ((mk B c d).insertAll ops).divided = true ∧
        5 ≤ ((mk B c d).insertAll ops).get_all_regions.length) ∧
      (∀ (B : AxisAlignedBoundingBox) (d : Nat) (aabb : AxisAlignedBoundingBox) (meta : M),
        d < max_depth → collides B aabb = true →
        ((mk B 0 d : Quadtree M).insert aabb meta).divided = true) := by
  refine ⟨?_, ?_, ?_, ?_⟩
  · intro b c d els aabb meta hd hc
    exact ⟨insert_leaf_append b c d els aabb meta hc,
      insert_leaf_subdivides b c d els aabb meta hd hc⟩
  · intro B c d ops h
    have e := insertAll_leaf B c d ops [] (by simpa using h)
    simp only [List.nil_append] at e
    refine ⟨e, ?_⟩
    rw [show (mk B c d : Quadtree M) = leaf B c d [] from rfl, e]
    rfl
  · intro B c d ops hd h
    have e := insertAll_leaf_divided B c d ops [] hd (Nat.zero_le _) (by simpa using h)
    refine ⟨e, ?_⟩
    rw [get_all_regions_eq]
    exact preorder_length_of_divided _ e
  · intro B d aabb meta hd hc
    exact insert_leaf_subdivides B 0 d [] aabb meta hd hc (Nat.zero_le _)

/-- The instances of C16 in a capacity-2 root: a leaf after two accepted inserts (and one
dropped), divided after the third. -/
theorem subdivision_trigger_witness :
    ((mk B100 2 0).insertAll [(⟨⟨10, 10, 5, 5⟩, 1⟩ : Element Nat), ⟨⟨200, 200, 5, 5⟩, 9⟩,
        ⟨⟨20, 20, 5, 5⟩, 2⟩]).get_all_regions = [B100] ∧
      ((mk B100 2 0).insertAll [(⟨⟨10, 10, 5, 5⟩, 1⟩ : Element Nat), ⟨⟨200, 200, 5, 5⟩, 9⟩,
        ⟨⟨20, 20, 5, 5⟩, 2⟩, ⟨⟨60, 60, 5, 5⟩, 3⟩]).divided = true :=
  ⟨(subdivision_trigger.2.1 B100 2 0 [(⟨⟨10, 10, 5, 5⟩, 1⟩ : Element Nat),
      ⟨⟨200, 200, 5, 5⟩, 9⟩, ⟨⟨20, 20, 5, 5⟩, 2⟩] (by decide!)).2,
    (subdivision_trigger.2.2.1 B100 2 0 [(⟨⟨10, 10, 5, 5⟩, 1⟩ : Element Nat),
      ⟨⟨200, 200, 5, 5⟩, 9⟩, ⟨⟨20, 20, 5, 5⟩, 2⟩, ⟨⟨60, 60, 5, 5⟩, 3⟩] (by decide)
      (by decide!)).1⟩

/-- C17. Subdivision is permanent and the structure only grows: after any `insert` into any
tree every node is where it was with the same boundary, capacity and depth, a divided node is
still divided with the same four child boundaries, and `get_all_regions` before the insert is a
subsequence of `get_all_regions` after it. -/
theorem insert_grows {M : Type} (t : Quadtree M) (aabb : AxisAlignedBoundingBox) (meta : M) :
    t.Grows (t.insert aabb meta) ∧
      ((t.insert aabb meta).boundary = t.boundary ∧ (t.insert aabb meta).capacity = t.capacity ∧
        (t.insert aabb meta).depth = t.depth) ∧
      (t.divided = true → (t.insert aabb meta).divided = true ∧
        (t.insert aabb meta).children.map boundary = t.children.map boundary ∧
        (t.insert aabb meta).children.map capacity = t.children.map capacity ∧
        (t.insert aabb meta).children.map depth = t.children.map depth) ∧
      t.get_all_regions.Sublist (t.insert aabb meta).get_all_regions := by
  have g := grows_insert t ⟨aabb, meta⟩
  refine ⟨g, grows_fields g, fun hd => ⟨divided_of_grows g hd, children_of_grows g hd⟩, ?_⟩
  rw [get_all_regions_eq, get_all_regions_eq]
  exact preorder_sublist_of_grows g

/-- An instance of C17: the insert that subdivides the northwest child of a divided root. -/
theorem insert_grows_witness :
    ((mk B100 1 0).insertAll
        [(⟨⟨10, 10, 5, 5⟩, 1⟩ : Element Nat), ⟨⟨60, 60, 5, 5⟩, 2⟩]).divided = true ∧
      (((mk B100 1 0).insertAll
        [(⟨⟨10, 10, 5, 5⟩, 1⟩ : Element Nat), ⟨⟨60, 60, 5, 5⟩, 2⟩]).insert
          ⟨30, 30, 5, 5⟩ 3).get_all_regions.length = 9 ∧
      ((mk B100 1 0).insertAll
        [(⟨⟨10, 10, 5, 5⟩, 1⟩ : Element Nat), ⟨⟨60, 60, 5, 5⟩, 2⟩]).get_all_regions.Sublist
        (((mk B100 1 0).insertAll
          [(⟨⟨10, 10, 5, 5⟩, 1⟩ : Element Nat), ⟨⟨60, 60, 5, 5⟩, 2⟩]).insert
            ⟨30, 30, 5, 5⟩ 3).get_all_regions :=
  ⟨by decide!, by decide!,
    (insert_grows ((mk B100 1 0).insertAll
      [(⟨⟨10, 10, 5, 5⟩, 1⟩ : Element Nat), ⟨⟨60, 60, 5, 5⟩, 2⟩]) ⟨30, 30, 5, 5⟩ 3).2.2.2⟩

/-- C18. Equivalence with a linear scan: for a query rectangle `R` of positive width and
height, `query_region(R)` on the tree built from a fresh root with boundary `B` by any sequence
of inserts has no duplicates and the same entries as the linear scan (the inserted entries
colliding with both `B` and `R` when `R` collides with `B`, none otherwise); so the result, as
a set, depends on neither the capacity nor the order of the inserts.  This holds for every
`B`, in particular for the boundaries of positive width and height. -/
theorem query_region_linear_scan {M : Type} [DecidableEq M] (B : AxisAlignedBoundingBox)
    (c : Nat) (ops : List (Element M)) (R : AxisAlignedBoundingBox)
    (hRw : 0 < R.w) (hRh : 0 < R.h) :
    (((mk B c 0).insertAll ops).query_region R).Nodup ∧
      (∀ e, e ∈ ((mk B c 0).insertAll ops).query_region R ↔ e ∈ linear_scan B ops R) ∧
      (collides B R = false → ((mk B c 0).insertAll ops).query_region R = []) ∧
      (∀ (c1 : Nat) (ops1 : List (Element M)), ops1.Perm ops →
        ∀ e, e ∈ ((mk B c1 0).insertAll ops1).query_region R ↔
          e ∈ ((mk B c 0).insertAll ops).query_region R) := by
  have key : ∀ (c1 : Nat) (ops1 : List (Element M)) (e : Element M),
      e ∈ ((mk B c1 0).insertAll ops1).query_region R ↔ e ∈ linear_scan B ops1 R := by
    intro c1 ops1 e
    rw [mem_query_region_insertAll B c1 0 ops1 R hRw hRh e, linear_scan]
    by_cases h : collides B R = true
    · simp only [h, if_true, true_and, List.mem_filter, Bool.and_eq_true]
    · simp [h]
  refine ⟨nodup_query_region _ R, key c ops, ?_, ?_⟩
  · intro h
    apply query_region_of_not_collides
    rw [boundary_insertAll]
    exact h
  · intro c1 ops1 hp e
    rw [key c1 ops1 e, key c ops e, linear_scan, linear_scan]
    split_ifs
    · simp only [List.mem_filter, hp.mem_iff]
    · rfl

/-- The instance of C18 in `test_normal_usage`: ten boxes on the diagonal, query
`(0,0,18,18)`. -/
theorem query_region_linear_scan_witness :
    linear_scan B100 ((List.range 10).map
        (fun i : Nat => (⟨⟨(i : ℚ) * 10, (i : ℚ) * 10, 5, 5⟩, i⟩ : Element Nat))) ⟨0, 0, 18, 18⟩ =
        [⟨⟨0, 0, 5, 5⟩, 0⟩, ⟨⟨10, 10, 5, 5⟩, 1⟩] ∧
      ∀ e, e ∈ ((mk B100 4 0).insertAll ((List.range 10).map
          (fun i : Nat => (⟨⟨(i : ℚ) * 10, (i : ℚ) * 10, 5, 5⟩, i⟩ : Element Nat)))).query_region
            ⟨0, 0, 18, 18⟩ ↔
        e ∈ linear_scan B100 ((List.range 10).map
          (fun i : Nat => (⟨⟨(i : ℚ) * 10, (i : ℚ) * 10, 5, 5⟩, i⟩ : Element Nat))) ⟨0, 0, 18, 18⟩ :=
  ⟨by decide!,
    (query_region_linear_scan B100 4 ((List.range 10).map
      (fun i : Nat => (⟨⟨(i : ℚ) * 10, (i : ℚ) * 10, 5, 5⟩, i⟩ : Element Nat))) ⟨0, 0, 18, 18⟩
      (by norm_num) (by norm_num)).2.1⟩

/-- C19, as stated, fails on doubles.  Root `B = (2^53, 0, 1, 1)`, of positive width and
height, and one insert of `(0, 0, 2^54, 1)`, all numbers doubles: the entry collides with `B`
and is stored, so the snapshot holds it, but `B.x + B.w = 2^53 + 1` rounds to `2^53`, so
`collides(B, B)` is false and `query_region(B)` is empty.  (More recursion depth does not
change the tree; with exact sums `query_region(B)` returns the entry.) -/
theorem query_region_boundary_double :
    (0 : ℚ) < (⟨9007199254740992, 0, 1, 1⟩ : AxisAlignedBoundingBox).w ∧
      (0 : ℚ) < (⟨9007199254740992, 0, 1, 1⟩ : AxisAlignedBoundingBox).h ∧
      collides_rd round_double ⟨9007199254740992, 0, 1, 1⟩ ⟨9007199254740992, 0, 1, 1⟩
        = false ∧
      ((mk ⟨9007199254740992, 0, 1, 1⟩ 4 0).insertAll_rd round_double
        [(⟨⟨0, 0, 18014398509481984, 1⟩, 7⟩ : Element Nat)]).allEntries =
        [⟨⟨0, 0, 18014398509481984, 1⟩, 7⟩] ∧
      ((mk ⟨9007199254740992, 0, 1, 1⟩ 4 0).insertAll_rd round_double
        [(⟨⟨0, 0, 18014398509481984, 1⟩, 7⟩ : Element Nat)]).query_region_rd round_double
          ⟨9007199254740992, 0, 1, 1⟩ = [] ∧
      insertFuel_rd round_double 100 (mk ⟨9007199254740992, 0, 1, 1⟩ 4 0 : Quadtree Nat)
          ⟨0, 0, 18014398509481984, 1⟩ 7 =
        (mk ⟨9007199254740992, 0, 1, 1⟩ 4 0 : Quadtree Nat).insert_rd round_double
          ⟨0, 0, 18014398509481984, 1⟩ 7 ∧
      ((mk ⟨9007199254740992, 0, 1, 1⟩ 4 0).insertAll
        [(⟨⟨0, 0, 18014398509481984, 1⟩, 7⟩ : Element Nat)]).query_region
          ⟨9007199254740992, 0, 1, 1⟩ = [⟨⟨0, 0, 18014398509481984, 1⟩, 7⟩] := by
  decide!

/-- C19, amended. Whole-boundary query equals the snapshot, over exact arithmetic (the sums
`x + w`, `y + h` and the halves without rounding): for a tree built by inserts from a fresh
root whose boundary `B` has positive width and height, `query_region(B)` and the snapshot of
`begin()` hold the same entries, each once, so they have the same size. -/
theorem query_region_boundary_eq_snapshot {M : Type} [DecidableEq M]
    (B : AxisAlignedBoundingBox) (c d : Nat) (ops : List (Element M))
    (hBw : 0 < B.w) (hBh : 0 < B.h) :
    (∀ e, e ∈ ((mk B c d).insertAll ops).query_region B ↔
        e ∈ ((mk B c d).insertAll ops).allEntries) ∧
      (((mk B c d).insertAll ops).query_region B).length =
        ((mk B c d).insertAll ops).allEntries.length := by
  have hBB : collides B B = true := by
    rw [collides_iff]
    exact ⟨by linarith, by linarith, by linarith, by linarith⟩
  have hmem : ∀ e, e ∈ ((mk B c d).insertAll ops).query_region B ↔
      e ∈ ((mk B c d).insertAll ops).allEntries := by
    intro e
    rw [mem_query_region_insertAll B c d ops B hBw hBh e, mem_allEntries,
      mem_stored_insertAll]
    have hs : ¬ e ∈ (mk B c d : Quadtree M).stored := by simp [mk, stored]
    have hsym : collides e.box B = true ↔ collides B e.box = true := by
      rw [collides_iff, collides_iff]
      tauto
    simp only [hBB, true_and, hs, false_or, hsym, boundary, mk]
    tauto
  refine ⟨hmem, ?_⟩
  apply List.Perm.length_eq
  rw [List.perm_ext_iff_of_nodup (nodup_query_region _ B) (nodup_allEntries _)]
  exact hmem

/-- The instance of C19 in `test_constructor_edge`: two entries, both counted. -/
theorem query_region_boundary_eq_snapshot_witness :
    (((mk B100 1 0).insertAll
        [(⟨⟨10, 10, 5, 5⟩, 1⟩ : Element Nat), ⟨⟨60, 60, 5, 5⟩, 2⟩]).query_region B100).length
        = 2 ∧
      (((mk B100 1 0).insertAll
        [(⟨⟨10, 10, 5, 5⟩, 1⟩ : Element Nat), ⟨⟨60, 60, 5, 5⟩, 2⟩]).query_region B100).length =
      ((mk B100 1 0).insertAll
        [(⟨⟨10, 10, 5, 5⟩, 1⟩ : Element Nat), ⟨⟨60, 60, 5, 5⟩, 2⟩]).allEntries.length :=
  ⟨by decide!,
    (query_region_boundary_eq_snapshot B100 1 0
      [(⟨⟨10, 10, 5, 5⟩, 1⟩ : Element Nat), ⟨⟨60, 60, 5, 5⟩, 2⟩] (by decide!) (by decide!)).2⟩

/-- C20. Local-storage invariant: in a tree built by inserts from a fresh root, every entry in
the local buffer of a node collides with the boundary of the node and, when the node is
divided, with none of its four child boundaries. -/
theorem local_storage {M : Type} (B : AxisAlignedBoundingBox) (c d : Nat)
    (ops : List (Element M)) (N : Quadtree M) (e : Element M)
    (hN : N ∈ ((mk B c d).insertAll ops).nodes) (he : e ∈ N.elements) :
    collides N.boundary e.box = true ∧ ∀ ch ∈ N.children, collides ch.boundary e.box = false :=
  (node_facts_of_inv (inv_of_mem_nodes (inv_insertAll _ ops (inv_mk B c d)) hN)).2.2.2 e he

/-- An instance of C20: the zero-size rectangle on the split point `(50,50)` stays in the
buffer of the divided root. -/
theorem local_storage_witness :
    ((mk B100 1 0).insertAll
        [(⟨⟨10, 10, 5, 5⟩, 1⟩ : Element Nat), ⟨⟨50, 50, 0, 0⟩, 2⟩]).divided = true ∧
      (⟨⟨50, 50, 0, 0⟩, 2⟩ : Element Nat) ∈ ((mk B100 1 0).insertAll
        [(⟨⟨10, 10, 5, 5⟩, 1⟩ : Element Nat), ⟨⟨50, 50, 0, 0⟩, 2⟩]).elements ∧
      (collides ((mk B100 1 0).insertAll
          [(⟨⟨10, 10, 5, 5⟩, 1⟩ : Element Nat), ⟨⟨50, 50, 0, 0⟩, 2⟩]).boundary
          ⟨50, 50, 0, 0⟩ = true ∧
        ∀ ch ∈ ((mk B100 1 0).insertAll
          [(⟨⟨10, 10, 5, 5⟩, 1⟩ : Element Nat), ⟨⟨50, 50, 0, 0⟩, 2⟩]).children,
          collides ch.boundary ⟨50, 50, 0, 0⟩ = false) :=
  ⟨by decide!, by decide!,
    local_storage B100 1 0 [(⟨⟨10, 10, 5, 5⟩, 1⟩ : Element Nat), ⟨⟨50, 50, 0, 0⟩, 2⟩]
      ((mk B100 1 0).insertAll [(⟨⟨10, 10, 5, 5⟩, 1⟩ : Element Nat), ⟨⟨50, 50, 0, 0⟩, 2⟩])
      ⟨⟨50, 50, 0, 0⟩, 2⟩ (mem_nodes_self _) (by decide!)⟩

end QuadTree
